import Mathlib

/-!
# Library catalogue: record store, title index, reservation queue, lending ledger

A shallow embedding of `src/project1.cpp` (`struct Book`, `struct BSTNode`,
`class LibrarySystem`) followed by theorems about it.

Modelling conventions

* `std::string` is a list of characters (`Str`); `==` is list equality and `<`
  is the lexicographic comparison `str_lt`.
* `int` is `CInt`, a 32-bit two's complement integer.  Signed overflow is
  undefined behaviour in the source; the model takes the wrap-around that the
  compiled program shows, so `2147483647 + 1` is `-2147483648`.
* `double` values are only stored and copied, never computed with; a `Double`
  is the stored 64-bit pattern.
* `unordered_map<string, Book>` is the list of its `(key, value)` entries in
  iteration order (`Store`).  A `Book*` into the map is the position of the
  entry.  Keys are pairwise distinct in every map value (`Store.WF`).  The
  iteration order of an `unordered_map` is unspecified; the model puts a new key
  behind the existing ones, and no theorem below depends on that place.
* `queue<string>` is a list with the front first; `stack<Book>` is a list with
  the top first.
* The text written to `cout` is not modelled, except for the titles printed by
  `displayReservations`.  The strings returned by `lendBook` and `returnBook`
  are represented by the `Outcome` that determines them.
-/

namespace Library

/-! ## Strings -/

/-- A `std::string`. -/
abbrev Str := List Char

/-- The comparison `a < b` of `std::string`: lexicographic on character codes,
a proper prefix being smaller. -/
def str_lt : Str → Str → Bool
  | [], [] => false
  | [], _ :: _ => true
  | _ :: _, [] => false
  | a :: as, b :: bs =>
    if a.toNat < b.toNat then true
    else if b.toNat < a.toNat then false
    else str_lt as bs

/-- The constant `std::string::npos` (64-bit `size_t`). -/
def npos : Nat := 2 ^ 64 - 1

/-- The call `str.find_first_not_of(c)`; `none` stands for `npos`. -/
def find_first_not_of : Str → Char → Option Nat
  | [], _ => none
  | x :: xs, c =>
    if x ≠ c then some 0 else (find_first_not_of xs c).map (· + 1)

/-- The call `str.find_last_not_of(c)`; `none` stands for `npos`. -/
def find_last_not_of : Str → Char → Option Nat
  | [], _ => none
  | x :: xs, c =>
    match find_last_not_of xs c with
    | some i => some (i + 1)
    | none => if x ≠ c then some 0 else none

/-- The call `str.substr(pos, len)` for `pos ≤ str.size()`. -/
def substr (str : Str) (pos len : Nat) : Str := (str.drop pos).take len

/-- Helper `LibrarySystem::trim`: strips leading and trailing spaces; a string
without any non-space character is returned as it is. -/
def trim (str : Str) : Str :=
  match find_first_not_of str ' ' with
  | none => str
  | some first =>
    let last := (find_last_not_of str ' ').getD npos
    substr str first (last - first + 1)

/-- The C function `tolower` in the "C" locale. -/
def tolower (c : Char) : Char :=
  if 'A'.toNat ≤ c.toNat ∧ c.toNat ≤ 'Z'.toNat then Char.ofNat (c.toNat + 32) else c

/-- Helper `LibrarySystem::toLowerCase`. -/
def toLowerCase (str : Str) : Str := str.map tolower

/-- The string without its leading and its trailing spaces. -/
def stripSpaces (s : Str) : Str :=
  (s.dropWhile (fun c => decide (c = ' '))).rdropWhile (fun c => decide (c = ' '))

/-- The normal form under which titles are compared when the comparison trims
and ignores case: leading and trailing spaces removed, basic Latin capitals
turned into small letters. -/
def normalForm (s : Str) : Str := (stripSpaces s).map Char.toLower

/-! ## Machine integers -/

/-- A C++ `int`: a 32-bit two's complement integer, given by its value. -/
structure CInt where
  toInt : Int
  inRange : -2147483648 ≤ toInt ∧ toInt ≤ 2147483647

/-- The `int` that 32-bit arithmetic gives for the integer `x`: `x` itself
inside the range, and `x` reduced modulo `2 ^ 32` into the range outside. -/
def CInt.ofInt (x : Int) : CInt :=
  ⟨(x + 2147483648) % 4294967296 - 2147483648, by omega⟩

instance : Coe CInt Int := ⟨CInt.toInt⟩

instance (n : Nat) : OfNat CInt n := ⟨CInt.ofInt n⟩

instance : Add CInt := ⟨fun a b => CInt.ofInt (a.toInt + b.toInt)⟩

instance : Sub CInt := ⟨fun a b => CInt.ofInt (a.toInt - b.toInt)⟩

instance : Neg CInt := ⟨fun a => CInt.ofInt (-a.toInt)⟩

instance : LT CInt := ⟨fun a b => a.toInt < b.toInt⟩

instance : LE CInt := ⟨fun a b => a.toInt ≤ b.toInt⟩

instance (a b : CInt) : Decidable (a < b) := inferInstanceAs (Decidable (a.toInt < b.toInt))

instance (a b : CInt) : Decidable (a ≤ b) := inferInstanceAs (Decidable (a.toInt ≤ b.toInt))

instance : DecidableEq CInt := fun a b =>
  match a, b with
  | ⟨x, _⟩, ⟨y, _⟩ =>
    if h : x = y then isTrue (by subst h; rfl)
    else isFalse (fun hc => h (congrArg CInt.toInt hc))

instance : Repr CInt := ⟨fun a n => reprPrec a.toInt n⟩

/-! ## Books and the title tree -/

/-- A stored `double`. -/
abbrev Double := Nat

/-- The record `struct Book`. -/
structure Book where
  ISBN : Str
  Title : Str
  Author : Str
  Price : Double
  Quantity : CInt
  borrowedCount : CInt
  reservationQueue : List Str
  deriving DecidableEq, Repr

/-- Default constructor `Book()`. -/
instance : Inhabited Book := ⟨⟨[], [], [], 0, 0, 0, []⟩⟩

/-- Parameterized constructor `Book(isbn, title, author, price, quantity)`. -/
def Book.new (isbn title author : Str) (price : Double) (quantity : CInt) : Book :=
  ⟨isbn, title, author, price, quantity, 0, []⟩

/-- The tree of `struct BSTNode`; `nullptr` is the empty tree. -/
inductive BSTNode where
  | nullptr : BSTNode
  | node (book : Book) (left right : BSTNode) : BSTNode
  deriving DecidableEq, Repr

/-- Helper `LibrarySystem::insert_bst`. -/
def insert_bst : BSTNode → Book → BSTNode
  | .nullptr, book => .node book .nullptr .nullptr
  | .node b left right, book =>
    if str_lt book.Title b.Title then .node b (insert_bst left book) right
    else .node b left (insert_bst right book)

/-- Helper `LibrarySystem::search_bst`; the result is the node found, or
`nullptr`. -/
def search_bst : BSTNode → Str → BSTNode
  | .nullptr, _ => .nullptr
  | .node b left right, title =>
    if b.Title = title then .node b left right
    else if str_lt title b.Title then search_bst left title
    else search_bst right title

/-- The books held in a tree, left subtree first, then the node, then the right
subtree. -/
def BSTNode.inorder : BSTNode → List Book
  | .nullptr => []
  | .node b left right => left.inorder ++ b :: right.inorder

/-- The search-tree ordering: at every node the titles of the left subtree are
smaller than the title of the node and the titles of the right subtree are
not. -/
def BSTNode.Ordered : BSTNode → Prop
  | .nullptr => True
  | .node b left right =>
    (∀ x ∈ left.inorder, str_lt x.Title b.Title = true) ∧
      (∀ x ∈ right.inorder, str_lt x.Title b.Title = false) ∧ left.Ordered ∧ right.Ordered

/-- Number of nodes of a tree. -/
def BSTNode.size : BSTNode → Nat
  | .nullptr => 0
  | .node _ left right => left.size + 1 + right.size

/-! ## The record store -/

/-- The entries of `books_by_isbn` in iteration order. -/
abbrev Store := List (Str × Book)

/-- Position of the entry stored under `key` (`unordered_map::find`). -/
def Store.findKey : Store → Str → Option Nat
  | [], _ => none
  | e :: rest, key =>
    if e.1 = key then some 0 else (Store.findKey rest key).map (· + 1)

/-- The call `m[key]`: the map after a default entry has been inserted when
`key` was absent, and the position of the entry under `key`. -/
def Store.subscript (m : Store) (key : Str) : Store × Nat :=
  match m.findKey key with
  | some i => (m, i)
  | none => (m ++ [(key, default)], m.length)

/-- A write through a reference to the value at position `i`. -/
def Store.modifyAt : Store → Nat → (Book → Book) → Store
  | [], _, _ => []
  | e :: rest, 0, f => (e.1, f e.2) :: rest
  | e :: rest, i + 1, f => e :: Store.modifyAt rest i f

/-- A read through a pointer to the value at position `i`. -/
def Store.deref (m : Store) (i : Nat) : Book :=
  match m[i]? with
  | some e => e.2
  | none => default

/-- The assignment `m[key] = book`. -/
def Store.assign (m : Store) (key : Str) (book : Book) : Store :=
  let r := m.subscript key
  r.1.modifyAt r.2 (fun _ => book)

/-- The value found by `books_by_isbn.find(key)`, if any. -/
def Store.get (m : Store) (key : Str) : Option Book :=
  match m.findKey key with
  | some i => some (m.deref i)
  | none => none

/-- Keys of a map are pairwise distinct. -/
def Store.WF (m : Store) : Prop := (m.map Prod.fst).Nodup

/-- Every entry is stored under its own `ISBN`. -/
def Store.Keyed (m : Store) : Prop := ∀ e ∈ m, e.2.ISBN = e.1

instance (m : Store) : Decidable m.WF := by unfold Store.WF; infer_instance

instance (m : Store) : Decidable m.Keyed := by unfold Store.Keyed; infer_instance

/-- Helper `LibrarySystem::getBookByTitle`: the position of the first entry, in
iteration order, whose trimmed lower-cased title equals the trimmed lower-cased
argument; `none` is the null pointer. -/
def getBookByTitle : Store → Str → Option Nat
  | [], _ => none
  | e :: rest, title =>
    if toLowerCase (trim e.2.Title) = toLowerCase (trim title) then some 0
    else (getBookByTitle rest title).map (· + 1)

/-! ## The library system -/

/-- The data members of `class LibrarySystem`. -/
structure LibrarySystem where
  books_by_isbn : Store
  bst_root : BSTNode
  reservation_queue : List Str
  recently_borrowed : List Book
  deriving DecidableEq, Repr

/-- Constructor `LibrarySystem()`. -/
def LibrarySystem.init : LibrarySystem := ⟨[], .nullptr, [], []⟩

/-- Method `addBook`. -/
def addBook (s : LibrarySystem) (book : Book) : LibrarySystem :=
  { s with
    books_by_isbn := s.books_by_isbn.assign book.ISBN book
    bst_root := insert_bst s.bst_root book }

/-- Method `reserveBook`. -/
def reserveBook (s : LibrarySystem) (title : Str) : LibrarySystem :=
  { s with reservation_queue := s.reservation_queue ++ [title] }

/-- The loop of `displayReservations` over its copy of the queue: the titles
printed, in the order printed. -/
def printQueue : List Str → List Str
  | [] => []
  | front :: temp_queue => front :: printQueue temp_queue

/-- Method `displayReservations`: the titles printed and the state after. -/
def displayReservations (s : LibrarySystem) : List Str × LibrarySystem :=
  (printQueue s.reservation_queue, s)

/-- What `lendBook` and `returnBook` report.  Each constructor stands for one
returned message: `Lent t n` for "Lent: t (Remaining copies: n)", `Unavailable t`
for "No copies of 't' available. ...", `BookNotFound t` for "Book not found: 't'",
`NoBooksToLend` for "No books to lend.", `Returned t n` for
"Returned: t (Available copies: n)", `ReturnError t` for
"Error: Book not found for returning: t", `NoBooksToReturn` for
"No books to return.". -/
inductive Outcome where
  | Lent (title : Str) (remaining : Int)
  | Unavailable (title : Str)
  | BookNotFound (title : Str)
  | NoBooksToLend
  | Returned (title : Str) (available : Int)
  | ReturnError (title : Str)
  | NoBooksToReturn
  deriving DecidableEq, Repr

/-- Method `lendBook`.  The counters are `int`s: `Quantity--` and
`borrowedCount++` are the 32-bit operations. -/
def lendBook (s : LibrarySystem) : Outcome × LibrarySystem :=
  match s.reservation_queue with
  | title :: queue =>
    match getBookByTitle s.books_by_isbn title with
    | some p =>
      let book := s.books_by_isbn.deref p
      if book.Quantity > 0 then
        let r := s.books_by_isbn.subscript book.ISBN
        let m1 := r.1.modifyAt r.2 (fun b => { b with Quantity := b.Quantity - 1 })
        let m2 := m1.modifyAt p (fun b => { b with borrowedCount := b.borrowedCount + 1 })
        (.Lent (m2.deref p).Title (m2.deref p).Quantity,
          { s with
            reservation_queue := queue
            recently_borrowed := book :: s.recently_borrowed
            books_by_isbn := m2 })
      else
        (.Unavailable title, { s with reservation_queue := queue ++ [title] })
    | none => (.BookNotFound title, { s with reservation_queue := queue })
  | [] => (.NoBooksToLend, s)

/-- Method `returnBook`.  The counters are `int`s: `borrowedCount--` and
`Quantity++` are the 32-bit operations, so `Quantity++` on 2147483647 gives
-2147483648. -/
def returnBook (s : LibrarySystem) : Outcome × LibrarySystem :=
  match s.recently_borrowed with
  | lastBorrowedBook :: stack =>
    match getBookByTitle s.books_by_isbn lastBorrowedBook.Title with
    | some p =>
      let m1 := s.books_by_isbn.modifyAt p
        (fun b => { b with borrowedCount := b.borrowedCount - 1 })
      let m2 := m1.modifyAt p (fun b => { b with Quantity := b.Quantity + 1 })
      (.Returned (m2.deref p).Title (m2.deref p).Quantity,
        { s with recently_borrowed := stack, books_by_isbn := m2 })
    | none =>
      (.ReturnError lastBorrowedBook.Title, { s with recently_borrowed := stack })
  | [] => (.NoBooksToReturn, s)

/-! ## Loading the catalogue -/

/-- The exceptions of the numeric conversions `std::stod` and `std::stoi`. -/
inductive ConvError where
  | invalid_argument
  | out_of_range
  deriving DecidableEq, Repr

/-- The C function `isspace` in the "C" locale. -/
def isspace (c : Char) : Bool :=
  c.toNat = 32 || (9 ≤ c.toNat && c.toNat ≤ 13)

/-- The C function `isdigit`. -/
def isdigit (c : Char) : Bool := '0'.toNat ≤ c.toNat && c.toNat ≤ '9'.toNat

/-- Value of a run of decimal digits. -/
def digitsValue (ds : Str) : Nat :=
  ds.foldl (fun acc d => acc * 10 + (d.toNat - '0'.toNat)) 0

/-- The call `std::stoi(str)`: leading white space is skipped, an optional sign
and the longest run of decimal digits are converted, what follows the digits is
ignored.  Without a digit the call throws `invalid_argument`; a value outside
the `int` range throws `out_of_range`. -/
def stoi (str : Str) : Except ConvError Int :=
  let s1 := str.dropWhile isspace
  let neg := s1.head? = some '-'
  let s2 := if s1.head? = some '-' ∨ s1.head? = some '+' then s1.tail else s1
  let digits := s2.takeWhile isdigit
  if digits = [] then .error .invalid_argument
  else
    let v : Int := if neg then -(digitsValue digits : Int) else (digitsValue digits : Int)
    if v < -(2 ^ 31) ∨ 2 ^ 31 - 1 < v then .error .out_of_range else .ok v

/-- The extraction loop of `getline(ss, field, delim)` on the unread characters
of a good stream: the characters before the first `delim` become the field and
the stream stays good behind the delimiter; when the end is hit first, the
remaining characters become the field and the stream is no longer good. -/
def extractField : Str → Char → Str × Option Str
  | [], _ => ([], none)
  | c :: cs, delim =>
    if c = delim then ([], some cs)
    else ((c :: (extractField cs delim).1), (extractField cs delim).2)

/-- One call `getline(ss, field, delim)` on a string stream into a fresh, empty
`field`.  The stream is `some rest` while it is good, `rest` being its unread
characters, and `none` once it has hit its end; a stream that is not good leaves
the field empty. -/
def getline (ss : Option Str) (delim : Char) : Str × Option Str :=
  match ss with
  | none => ([], none)
  | some rest => extractField rest delim

/-- The five trimmed fields `isbn, title, author, price_str, quantity_str` that
`loadBooksFromCSV` reads from one line. -/
structure Fields where
  isbn : Str
  title : Str
  author : Str
  price_str : Str
  quantity_str : Str
  deriving DecidableEq, Repr

/-- The field extraction of the loop body of `loadBooksFromCSV`. -/
def readFields (line : Str) : Fields :=
  let r1 := getline (some line) ','
  let r2 := getline r1.2 ','
  let r3 := getline r2.2 ','
  let r4 := getline r3.2 ','
  let r5 := getline r4.2 ','
  ⟨trim r1.1, trim r2.1, trim r3.1, trim r4.1, trim r5.1⟩

/-- The loop body of `loadBooksFromCSV` for one line of the file.  The library
conversion `std::stod` is a parameter. -/
def loadLine (stod : Str → Except ConvError Double) (s : LibrarySystem) (line : Str) :
    LibrarySystem :=
  if line = [] then s
  else
    let f := readFields line
    if f.price_str = [] ∨ f.quantity_str = [] then s
    else
      match stod f.price_str with
      | .error _ => s
      | .ok price =>
        match stoi f.quantity_str with
        | .error _ => s
        | .ok quantity =>
          addBook s (Book.new f.isbn f.title f.author price (CInt.ofInt quantity))

/-- Method `loadBooksFromCSV`; `file` is `none` when the file cannot be opened
and the list of its lines otherwise. -/
def loadBooksFromCSV (stod : Str → Except ConvError Double) (s : LibrarySystem)
    (file : Option (List Str)) : LibrarySystem :=
  match file with
  | none => s
  | some lines => lines.foldl (loadLine stod) s

/-- The field starts with an integer: after leading white space and at most one
sign comes a decimal digit. -/
def startsWithInteger (field : Str) : Bool :=
  match field.dropWhile isspace with
  | [] => false
  | c :: rest =>
    if c = '-' ∨ c = '+' then
      match rest with
      | [] => false
      | d :: _ => isdigit d
    else isdigit c

/-- The lines that `loadBooksFromCSV` rejects: the trimmed price or quantity
field is empty, or `stod` does not convert the price, or `stoi` does not convert
the quantity. -/
def rejected (stod : Str → Except ConvError Double) (line : Str) : Bool :=
  (readFields line).price_str = [] || (readFields line).quantity_str = [] ||
    (match stod (readFields line).price_str with
      | .error _ => true
      | .ok _ => false) ||
    (match stoi (readFields line).quantity_str with
      | .error _ => true
      | .ok _ => false)

/-- The word "numeric" of the specification read literally: the whole field is
a decimal numeral, that is an optional sign followed by decimal digits with at
most one decimal point among them and at least one digit. -/
def specNumeric (field : Str) : Bool :=
  let body := if field.head? = some '-' ∨ field.head? = some '+' then field.tail else field
  body.all (fun c => isdigit c || c = '.') && body.any isdigit &&
    (body.filter (fun c => c = '.')).length ≤ 1

/-- The malformed row of the specification read literally: the price or the
quantity field is missing or is not numeric. -/
def specMalformed (line : Str) : Bool :=
  (readFields line).price_str = [] || (readFields line).quantity_str = [] ||
    !specNumeric (readFields line).price_str || !specNumeric (readFields line).quantity_str

/-! ## States of a running library -/

/-- The states a `LibrarySystem` object can be in: the one its constructor
builds and those its public methods produce from it.  (`searchByTitle`,
`displayReservations` and `displayBooks` do not change the state.) -/
inductive Reachable : LibrarySystem → Prop
  | init : Reachable LibrarySystem.init
  | addBook (s : LibrarySystem) (book : Book) : Reachable s → Reachable (addBook s book)
  | loadBooksFromCSV (stod : Str → Except ConvError Double) (s : LibrarySystem)
      (file : Option (List Str)) : Reachable s → Reachable (loadBooksFromCSV stod s file)
  | reserveBook (s : LibrarySystem) (title : Str) : Reachable s → Reachable (reserveBook s title)
  | lendBook (s : LibrarySystem) : Reachable s → Reachable (lendBook s).2
  | returnBook (s : LibrarySystem) : Reachable s → Reachable (returnBook s).2

/-- Method `searchByTitle`: what it prints about the node found, namely title,
author and quantity of its book; `none` stands for "Book not found by Title.".
The state is not changed. -/
def searchByTitle (s : LibrarySystem) (title : Str) : Option (Str × Str × Int) :=
  match search_bst s.bst_root title with
  | .nullptr => none
  | .node b _ _ => some (b.Title, b.Author, b.Quantity)

/-- One call of the lending workflow: `reserveBook(title)`, `lendBook()` or
`returnBook()`. -/
inductive WorkflowCall where
  | reserveBook (title : Str)
  | lendBook
  | returnBook
  deriving DecidableEq, Repr

/-- The state after one call of the lending workflow. -/
def call (s : LibrarySystem) : WorkflowCall → LibrarySystem
  | .reserveBook title => reserveBook s title
  | .lendBook => (lendBook s).2
  | .returnBook => (returnBook s).2

/-- The states reached from a new library by `reserveBook`, `lendBook`,
`returnBook` and by `addBook` of books that satisfy `P`. -/
inductive ReachableBy (P : Book → Prop) : LibrarySystem → Prop
  | init : ReachableBy P LibrarySystem.init
  | addBook (s : LibrarySystem) (book : Book) :
      P book → ReachableBy P s → ReachableBy P (addBook s book)
  | reserveBook (s : LibrarySystem) (title : Str) :
      ReachableBy P s → ReachableBy P (reserveBook s title)
  | lendBook (s : LibrarySystem) : ReachableBy P s → ReachableBy P (lendBook s).2
  | returnBook (s : LibrarySystem) : ReachableBy P s → ReachableBy P (returnBook s).2

/-- A book with one available copy. -/
def dune : Book := Book.new "X1".toList "Dune".toList "Frank Herbert".toList 0 1

/-- A book without available copies. -/
def emma : Book := Book.new "X2".toList "Emma".toList "Jane Austen".toList 0 0

/-- A library holding `dune` and `emma`. -/
def twoBooks : LibrarySystem := addBook (addBook LibrarySystem.init dune) emma

/-- The library `twoBooks` after reservations for "Dune" and then "Emma". -/
def duneThenEmma : LibrarySystem :=
  reserveBook (reserveBook twoBooks "Dune".toList) "Emma".toList

/-- The library `twoBooks` after reservations for "Emma" and then "Dune". -/
def emmaThenDune : LibrarySystem :=
  reserveBook (reserveBook twoBooks "Emma".toList) "Dune".toList

/-- A stand-in for `std::stod` on the sample rows, whose price field is always
9.99: that field converts to the `double` nearest to 9.99, no other field
converts. -/
def stodSample (str : Str) : Except ConvError Double :=
  if str = "9.99".toList then .ok 4621813488089437307 else .error .invalid_argument

/-- A row whose quantity field is the text 12abc. -/
def rowSuffixedQuantity : Str := "1,Dune,Frank Herbert,9.99,12abc".toList

/-- A row whose quantity field holds no digit. -/
def rowNoQuantity : Str := "2,Emma,Jane Austen,9.99,many".toList

/-- A well-formed row. -/
def rowGood : Str := "3, Ulysses , James Joyce, 9.99, 4".toList

/-- The library holding `dune` alone, after "Dune" has been reserved and
lent. -/
def duneLent : LibrarySystem :=
  (lendBook (reserveBook (addBook LibrarySystem.init dune) "Dune".toList)).2

/-- The library `duneLent` after `dune` has been added once more. -/
def duneAddedAgain : LibrarySystem := addBook duneLent dune

/-- The book "Dune" with as many copies as an `int` can count. -/
def duneMax : Book :=
  Book.new "X1".toList "Dune".toList "Frank Herbert".toList 0 2147483647

/-- The library in which `duneMax` has been added, "Dune" reserved and lent, and
`duneMax` added once more: its entry holds 2147483647 copies while the ledger
holds the snapshot of the lent one. -/
def duneMaxAddedAgain : LibrarySystem :=
  addBook (lendBook (reserveBook (addBook LibrarySystem.init duneMax) "Dune".toList)).2 duneMax

/-- A book whose title is a single space. -/
def blankTitled : Book := Book.new "B1".toList " ".toList "Nobody".toList 0 1

/-- A library holding `dune` and `blankTitled`. -/
def duneAndBlank : LibrarySystem := addBook (addBook LibrarySystem.init dune) blankTitled

/-! ## Facts about machine integers -/

theorem CInt.ext (a b : CInt) (h : a.toInt = b.toInt) : a = b := by
  cases a
  cases b
  simp only at h
  subst h
  rfl

theorem CInt.toInt_ofInt (x : Int) :
    (CInt.ofInt x).toInt = (x + 2147483648) % 4294967296 - 2147483648 := rfl

theorem CInt.toInt_add (a b : CInt) :
    (a + b).toInt = (a.toInt + b.toInt + 2147483648) % 4294967296 - 2147483648 := rfl

theorem CInt.toInt_sub (a b : CInt) :
    (a - b).toInt = (a.toInt - b.toInt + 2147483648) % 4294967296 - 2147483648 := rfl

theorem CInt.toInt_zero : (0 : CInt).toInt = 0 := rfl

theorem CInt.toInt_one : (1 : CInt).toInt = 1 := rfl

theorem CInt.lt_iff (a b : CInt) : a < b ↔ a.toInt < b.toInt := Iff.rfl

/-- Inside the range the decrement is the integer decrement. -/
theorem CInt.toInt_sub_one (a : CInt) (h : -2147483648 < a.toInt) :
    (a - 1).toInt = a.toInt - 1 := by
  have := a.inRange
  rw [CInt.toInt_sub, CInt.toInt_one]
  omega

/-- Inside the range the increment is the integer increment. -/
theorem CInt.toInt_add_one (a : CInt) (h : a.toInt < 2147483647) :
    (a + 1).toInt = a.toInt + 1 := by
  have := a.inRange
  rw [CInt.toInt_add, CInt.toInt_one]
  omega

theorem CInt.toInt_sub_one_of_pos (a : CInt) (h : 0 < a) : (a - 1).toInt = a.toInt - 1 := by
  apply CInt.toInt_sub_one
  have := (CInt.lt_iff 0 a).mp h
  rw [CInt.toInt_zero] at this
  omega

theorem CInt.sub_add_cancel (a b : CInt) : a - b + b = a := by
  apply CInt.ext
  have ha := a.inRange
  have hb := b.inRange
  rw [CInt.toInt_add, CInt.toInt_sub]
  omega

theorem CInt.add_sub_cancel (a b : CInt) : a + b - b = a := by
  apply CInt.ext
  have ha := a.inRange
  have hb := b.inRange
  rw [CInt.toInt_sub, CInt.toInt_add]
  omega

/-- The increment overflows at the upper end of the range. -/
theorem CInt.max_add_one : ((2147483647 : CInt) + 1).toInt = -2147483648 := by decide

/-! ## Facts about the record store -/

theorem Store.modifyAt_eq_set (m : Store) (i : Nat) (f : Book → Book) (k : Str) (b : Book)
    (h : m[i]? = some (k, b)) : m.modifyAt i f = m.set i (k, f b) := by
  induction m generalizing i with
  | nil => simp at h
  | cons e rest ih =>
    cases i with
    | zero =>
      simp only [List.getElem?_cons_zero, Option.some.injEq] at h
      subst h
      rfl
    | succ n =>
      simp only [List.getElem?_cons_succ] at h
      simp only [Store.modifyAt, List.set_cons_succ, ih n h]

theorem Store.deref_eq (m : Store) (i : Nat) (k : Str) (b : Book)
    (h : m[i]? = some (k, b)) : m.deref i = b := by
  simp [Store.deref, h]

theorem Store.findKey_lt (m : Store) (key : Str) (i : Nat) (h : m.findKey key = some i) :
    i < m.length := by
  induction m generalizing i with
  | nil => simp [Store.findKey] at h
  | cons e rest ih =>
    simp only [Store.findKey] at h
    split at h
    · simp only [Option.some.injEq] at h
      subst h
      simp
    · cases hr : Store.findKey rest key with
      | none => simp [hr] at h
      | some j =>
        simp only [hr, Option.map_some', Option.some.injEq] at h
        subst h
        simpa using ih j hr

theorem Store.findKey_none (m : Store) (key : Str) :
    m.findKey key = none ↔ key ∉ m.map Prod.fst := by
  induction m with
  | nil => simp [Store.findKey]
  | cons e rest ih =>
    simp only [Store.findKey, List.map_cons, List.mem_cons, not_or]
    split
    · rename_i h
      simp [h]
    · rename_i h
      simp only [Option.map_eq_none', ih]
      constructor
      · intro h2
        exact ⟨fun h3 => h h3.symm, h2⟩
      · intro h2
        exact h2.2

/-- In a map with distinct keys the entry at position `i` is the one found under
its key. -/
theorem Store.findKey_of_getElem (m : Store) (hwf : m.WF) (i : Nat) (k : Str) (b : Book)
    (h : m[i]? = some (k, b)) : m.findKey k = some i := by
  induction m generalizing i with
  | nil => simp at h
  | cons e rest ih =>
    have hnd : e.1 ∉ rest.map Prod.fst ∧ (rest.map Prod.fst).Nodup := by
      simpa [Store.WF] using hwf
    cases i with
    | zero =>
      simp only [List.getElem?_cons_zero, Option.some.injEq] at h
      subst h
      simp [Store.findKey]
    | succ n =>
      simp only [List.getElem?_cons_succ] at h
      have hmem : k ∈ rest.map Prod.fst := by
        have := List.getElem?_mem h
        exact List.mem_map.mpr ⟨(k, b), this, rfl⟩
      have hne : e.1 ≠ k := fun hc => hnd.1 (hc ▸ hmem)
      simp [Store.findKey, hne, ih hnd.2 n h]

/-! ## Facts about the title finder -/

theorem getBookByTitle_congr (m : Store) (t1 t2 : Str)
    (h : toLowerCase (trim t1) = toLowerCase (trim t2)) :
    getBookByTitle m t1 = getBookByTitle m t2 := by
  induction m with
  | nil => rfl
  | cons e rest ih => simp only [getBookByTitle, h, ih]

theorem getBookByTitle_none (m : Store) (t : Str) :
    getBookByTitle m t = none ↔
      ∀ e ∈ m, toLowerCase (trim e.2.Title) ≠ toLowerCase (trim t) := by
  induction m with
  | nil => simp [getBookByTitle]
  | cons e rest ih =>
    simp only [getBookByTitle, List.mem_cons, forall_eq_or_imp]
    split
    · rename_i h
      simp [h]
    · rename_i h
      simp [h, ih]

theorem getBookByTitle_some (m : Store) (t : Str) (p : Nat) (h : getBookByTitle m t = some p) :
    (∃ e, m[p]? = some e ∧ toLowerCase (trim e.2.Title) = toLowerCase (trim t)) ∧
      ∀ j e, j < p → m[j]? = some e →
        toLowerCase (trim e.2.Title) ≠ toLowerCase (trim t) := by
  induction m generalizing p with
  | nil => simp [getBookByTitle] at h
  | cons e rest ih =>
    simp only [getBookByTitle] at h
    split at h
    · rename_i heq
      simp only [Option.some.injEq] at h
      subst h
      exact ⟨⟨e, by simp, heq⟩, fun j _ hj => absurd hj (Nat.not_lt_zero j)⟩
    · rename_i hne
      cases hr : getBookByTitle rest t with
      | none => simp [hr] at h
      | some q =>
        simp only [hr, Option.map_some', Option.some.injEq] at h
        subst h
        obtain ⟨⟨e1, he1, ht1⟩, hfirst⟩ := ih q hr
        refine ⟨⟨e1, by simpa using he1, ht1⟩, ?_⟩
        intro j e2 hj he2
        cases j with
        | zero =>
          simp only [List.getElem?_cons_zero, Option.some.injEq] at he2
          subst he2
          exact hne
        | succ j1 =>
          simp only [List.getElem?_cons_succ] at he2
          exact hfirst j1 e2 (by omega) he2

/-- The finder only reads titles: a write that keeps the title of the entry at
position `i` does not change what the finder returns. -/
theorem getBookByTitle_set (m : Store) (t : Str) (i : Nat) (k : Str) (b b2 : Book)
    (h : m[i]? = some (k, b)) (ht : b2.Title = b.Title) :
    getBookByTitle (m.set i (k, b2)) t = getBookByTitle m t := by
  induction m generalizing i with
  | nil => simp at h
  | cons e rest ih =>
    cases i with
    | zero =>
      simp only [List.getElem?_cons_zero, Option.some.injEq] at h
      subst h
      simp only [List.set_cons_zero, getBookByTitle, ht]
    | succ n =>
      simp only [List.getElem?_cons_succ] at h
      simp only [List.set_cons_succ, getBookByTitle, ih n h]

/-! ## The lending operations, case by case -/

/-- The successful branch of `lendBook`, as one equation. -/
theorem lendBook_lent_eq (s : LibrarySystem) (t : Str) (queue : List Str) (p : Nat) (k : Str)
    (e : Book) (hq : s.reservation_queue = t :: queue)
    (hf : getBookByTitle s.books_by_isbn t = some p)
    (he : s.books_by_isbn[p]? = some (k, e)) (hpos : 0 < e.Quantity)
    (hwf : s.books_by_isbn.WF) (hkey : s.books_by_isbn.Keyed) :
    lendBook s =
      (.Lent e.Title (e.Quantity - 1),
        { s with
          reservation_queue := queue
          recently_borrowed := e :: s.recently_borrowed
          books_by_isbn := s.books_by_isbn.set p
            (k, { e with Quantity := e.Quantity - 1, borrowedCount := e.borrowedCount + 1 }) }) := by
  have hk : e.ISBN = k := hkey (k, e) (List.getElem?_mem he)
  have hfk : s.books_by_isbn.findKey e.ISBN = some p := by
    rw [hk]
    exact Store.findKey_of_getElem _ hwf p k e he
  have hlt : p < s.books_by_isbn.length := Store.findKey_lt _ _ _ hfk
  have hd : s.books_by_isbn.deref p = e := Store.deref_eq _ _ _ _ he
  have h1 : s.books_by_isbn.modifyAt p (fun b => { b with Quantity := b.Quantity - 1 }) =
      s.books_by_isbn.set p (k, { e with Quantity := e.Quantity - 1 }) :=
    Store.modifyAt_eq_set _ _ _ _ _ he
  have h2 : (s.books_by_isbn.set p (k, { e with Quantity := e.Quantity - 1 }))[p]? =
      some (k, { e with Quantity := e.Quantity - 1 }) := List.getElem?_set_self hlt
  have h3 := Store.modifyAt_eq_set _ p
    (fun b => { b with borrowedCount := b.borrowedCount + 1 }) _ _ h2
  have h4 : (s.books_by_isbn.set p
      (k, { e with Quantity := e.Quantity - 1, borrowedCount := e.borrowedCount + 1 }))[p]? =
      some (k, { e with Quantity := e.Quantity - 1, borrowedCount := e.borrowedCount + 1 }) :=
    List.getElem?_set_self hlt
  simp only [lendBook, hq, hf, hd, hpos, gt_iff_lt, if_true, Store.subscript, hfk, h1, h3,
    List.set_set, Store.deref_eq _ _ _ _ h4, CInt.toInt_sub_one_of_pos e.Quantity hpos]

/-- The branch of `lendBook` for a book without available copies. -/
theorem lendBook_unavailable_eq (s : LibrarySystem) (t : Str) (queue : List Str) (p : Nat)
    (hq : s.reservation_queue = t :: queue)
    (hf : getBookByTitle s.books_by_isbn t = some p)
    (hzero : ¬ 0 < (s.books_by_isbn.deref p).Quantity) :
    lendBook s = (.Unavailable t, { s with reservation_queue := queue ++ [t] }) := by
  simp only [lendBook, hq, hf, gt_iff_lt, hzero, if_false]

/-- The branch of `lendBook` for a title that no entry matches. -/
theorem lendBook_notFound_eq (s : LibrarySystem) (t : Str) (queue : List Str)
    (hq : s.reservation_queue = t :: queue)
    (hf : getBookByTitle s.books_by_isbn t = none) :
    lendBook s = (.BookNotFound t, { s with reservation_queue := queue }) := by
  simp only [lendBook, hq, hf]

/-- The branch of `lendBook` for an empty queue. -/
theorem lendBook_empty_eq (s : LibrarySystem) (hq : s.reservation_queue = []) :
    lendBook s = (.NoBooksToLend, s) := by
  simp only [lendBook, hq]

/-- The successful branch of `returnBook`, as one equation. -/
theorem returnBook_returned_eq (s : LibrarySystem) (top : Book) (stack : List Book) (p : Nat)
    (k : Str) (e : Book) (hl : s.recently_borrowed = top :: stack)
    (hf : getBookByTitle s.books_by_isbn top.Title = some p)
    (he : s.books_by_isbn[p]? = some (k, e)) :
    returnBook s =
      (.Returned e.Title (e.Quantity + 1 : CInt).toInt,
        { s with
          recently_borrowed := stack
          books_by_isbn := s.books_by_isbn.set p
            (k, { e with borrowedCount := e.borrowedCount - 1, Quantity := e.Quantity + 1 }) }) := by
  have hlt : p < s.books_by_isbn.length := (List.getElem?_eq_some.mp he).1
  have h1 := Store.modifyAt_eq_set _ p
    (fun b => { b with borrowedCount := b.borrowedCount - 1 }) _ _ he
  have h2 : (s.books_by_isbn.set p (k, { e with borrowedCount := e.borrowedCount - 1 }))[p]? =
      some (k, { e with borrowedCount := e.borrowedCount - 1 }) := List.getElem?_set_self hlt
  have h3 := Store.modifyAt_eq_set _ p (fun b => { b with Quantity := b.Quantity + 1 }) _ _ h2
  have h4 : (s.books_by_isbn.set p
      (k, { e with borrowedCount := e.borrowedCount - 1, Quantity := e.Quantity + 1 }))[p]? =
      some (k, { e with borrowedCount := e.borrowedCount - 1, Quantity := e.Quantity + 1 }) :=
    List.getElem?_set_self hlt
  simp only [returnBook, hl, hf, h1, h3, List.set_set, Store.deref_eq _ _ _ _ h4]

/-- The branch of `returnBook` for a snapshot whose title no entry matches. -/
theorem returnBook_error_eq (s : LibrarySystem) (top : Book) (stack : List Book)
    (hl : s.recently_borrowed = top :: stack)
    (hf : getBookByTitle s.books_by_isbn top.Title = none) :
    returnBook s = (.ReturnError top.Title, { s with recently_borrowed := stack }) := by
  simp only [returnBook, hl, hf]

/-- The branch of `returnBook` for an empty ledger. -/
theorem returnBook_empty_eq (s : LibrarySystem) (hl : s.recently_borrowed = []) :
    returnBook s = (.NoBooksToReturn, s) := by
  simp only [returnBook, hl]

/-! ## Assignment into the record store -/

theorem Store.assign_nil (key : Str) (book : Book) :
    Store.assign [] key book = [(key, book)] := rfl

theorem Store.assign_cons (e : Str × Book) (rest : Store) (key : Str) (book : Book) :
    Store.assign (e :: rest) key book =
      if e.1 = key then (e.1, book) :: rest else e :: Store.assign rest key book := by
  by_cases h : e.1 = key
  · simp [Store.assign, Store.subscript, Store.findKey, h, Store.modifyAt]
  · cases hr : Store.findKey rest key with
    | none => simp [Store.assign, Store.subscript, Store.findKey, h, hr, Store.modifyAt]
    | some j => simp [Store.assign, Store.subscript, Store.findKey, h, hr, Store.modifyAt]

theorem Store.get_nil (i : Str) : Store.get [] i = none := rfl

theorem Store.get_cons (e : Str × Book) (rest : Store) (i : Str) :
    Store.get (e :: rest) i = if e.1 = i then some e.2 else Store.get rest i := by
  by_cases h : e.1 = i
  · simp [Store.get, Store.findKey, h, Store.deref]
  · cases hr : Store.findKey rest i with
    | none => simp [Store.get, Store.findKey, h, hr]
    | some j => simp [Store.get, Store.findKey, h, hr, Store.deref]

theorem Store.get_assign (m : Store) (key : Str) (book : Book) (i : Str) :
    (m.assign key book).get i = if key = i then some book else m.get i := by
  induction m with
  | nil => simp [Store.assign_nil, Store.get_cons, Store.get_nil]
  | cons e rest ih =>
    rw [Store.assign_cons]
    by_cases h : e.1 = key
    · simp only [h, if_true, Store.get_cons]
      by_cases h2 : key = i
      · simp [h2]
      · simp [h2]
    · simp only [h, if_false, Store.get_cons, ih]
      by_cases h2 : e.1 = i
      · have : key ≠ i := fun hc => h (h2.trans hc.symm)
        simp [h2, this]
      · simp [h2]

theorem Store.keys_assign (m : Store) (key : Str) (book : Book) :
    (m.assign key book).map Prod.fst =
      if key ∈ m.map Prod.fst then m.map Prod.fst else m.map Prod.fst ++ [key] := by
  induction m with
  | nil => simp [Store.assign_nil]
  | cons e rest ih =>
    rw [Store.assign_cons]
    by_cases h : e.1 = key
    · simp [h]
    · have h2 : ¬ key = e.1 := fun hc => h hc.symm
      simp only [h, if_false, List.map_cons, ih, List.mem_cons, h2, false_or]
      split <;> simp

theorem Store.mem_assign (m : Store) (key : Str) (book : Book) (e : Str × Book)
    (h : e ∈ m.assign key book) : e = (key, book) ∨ e ∈ m := by
  induction m with
  | nil => simpa [Store.assign_nil] using h
  | cons e1 rest ih =>
    rw [Store.assign_cons] at h
    by_cases hk : e1.1 = key
    · simp only [hk, if_true, List.mem_cons] at h
      rcases h with h | h
      · exact Or.inl h
      · exact Or.inr (List.mem_cons_of_mem _ h)
    · simp only [hk, if_false, List.mem_cons] at h
      rcases h with h | h
      · exact Or.inr (h ▸ List.mem_cons_self _ _)
      · rcases ih h with h2 | h2
        · exact Or.inl h2
        · exact Or.inr (List.mem_cons_of_mem _ h2)

theorem Store.WF_assign (m : Store) (key : Str) (book : Book) (hwf : m.WF) :
    (m.assign key book).WF := by
  unfold Store.WF at *
  rw [Store.keys_assign]
  split
  · exact hwf
  · rename_i h
    exact List.Nodup.append hwf (List.nodup_singleton key) (by simpa using h)

theorem Store.Keyed_assign (m : Store) (book : Book) (hk : m.Keyed) :
    (m.assign book.ISBN book).Keyed := by
  intro e he
  rcases Store.mem_assign _ _ _ _ he with h | h
  · subst h
    rfl
  · exact hk e h

/-! ## Invariants of the record store -/

theorem list_set_same {α : Type} (l : List α) (i : Nat) (a : α) (h : l[i]? = some a) :
    l.set i a = l := by
  induction l generalizing i with
  | nil => rfl
  | cons x xs ih =>
    cases i with
    | zero =>
      simp only [List.getElem?_cons_zero, Option.some.injEq] at h
      simp [h]
    | succ n =>
      simp only [List.getElem?_cons_succ] at h
      simp [ih n h]

theorem Store.keys_set (m : Store) (p : Nat) (k : Str) (e e2 : Book)
    (he : m[p]? = some (k, e)) : (m.set p (k, e2)).map Prod.fst = m.map Prod.fst := by
  rw [List.map_set]
  apply list_set_same
  simp [List.getElem?_map, he]

theorem Store.WF_set (m : Store) (p : Nat) (k : Str) (e e2 : Book)
    (he : m[p]? = some (k, e)) (hwf : m.WF) : Store.WF (m.set p (k, e2)) := by
  unfold Store.WF at *
  rw [Store.keys_set m p k e e2 he]
  exact hwf

theorem Store.Keyed_set (m : Store) (p : Nat) (k : Str) (e2 : Book)
    (hk2 : e2.ISBN = k) (hk : m.Keyed) : Store.Keyed (m.set p (k, e2)) := by
  intro x hx
  rcases List.mem_or_eq_of_mem_set hx with h | h
  · exact hk x h
  · subst h
    exact hk2

/-- The outcome of `lendBook` and `returnBook` never changes the keys of the
store nor the `ISBN` stored under a key, whenever the store is well keyed. -/
theorem lendBook_invariant (s : LibrarySystem) (hwf : s.books_by_isbn.WF)
    (hk : s.books_by_isbn.Keyed) :
    (lendBook s).2.books_by_isbn.WF ∧ (lendBook s).2.books_by_isbn.Keyed := by
  cases hq : s.reservation_queue with
  | nil =>
    rw [lendBook_empty_eq s hq]
    exact ⟨hwf, hk⟩
  | cons t queue =>
    cases hf : getBookByTitle s.books_by_isbn t with
    | none =>
      rw [lendBook_notFound_eq s t queue hq hf]
      exact ⟨hwf, hk⟩
    | some p =>
      obtain ⟨⟨⟨k, e⟩, he, _⟩, _⟩ := getBookByTitle_some _ _ _ hf
      by_cases hpos : 0 < e.Quantity
      · rw [lendBook_lent_eq s t queue p k e hq hf he hpos hwf hk]
        exact ⟨Store.WF_set _ _ _ _ _ he hwf,
          Store.Keyed_set _ _ _ _ (hk (k, e) (List.getElem?_mem he)) hk⟩
      · have hd : ¬ 0 < (s.books_by_isbn.deref p).Quantity := by
          rw [Store.deref_eq _ _ _ _ he]
          exact hpos
        rw [lendBook_unavailable_eq s t queue p hq hf hd]
        exact ⟨hwf, hk⟩

theorem returnBook_invariant (s : LibrarySystem) (hwf : s.books_by_isbn.WF)
    (hk : s.books_by_isbn.Keyed) :
    (returnBook s).2.books_by_isbn.WF ∧ (returnBook s).2.books_by_isbn.Keyed := by
  cases hl : s.recently_borrowed with
  | nil =>
    rw [returnBook_empty_eq s hl]
    exact ⟨hwf, hk⟩
  | cons top stack =>
    cases hf : getBookByTitle s.books_by_isbn top.Title with
    | none =>
      rw [returnBook_error_eq s top stack hl hf]
      exact ⟨hwf, hk⟩
    | some p =>
      obtain ⟨⟨⟨k, e⟩, he, _⟩, _⟩ := getBookByTitle_some _ _ _ hf
      rw [returnBook_returned_eq s top stack p k e hl hf he]
      exact ⟨Store.WF_set _ _ _ _ _ he hwf,
        Store.Keyed_set _ _ _ _ (hk (k, e) (List.getElem?_mem he)) hk⟩

theorem addBook_invariant (s : LibrarySystem) (book : Book) (hwf : s.books_by_isbn.WF)
    (hk : s.books_by_isbn.Keyed) :
    (addBook s book).books_by_isbn.WF ∧ (addBook s book).books_by_isbn.Keyed :=
  ⟨Store.WF_assign _ _ _ hwf, Store.Keyed_assign _ _ hk⟩

/-- Each line of the file leaves the state as it is or adds one book. -/
theorem loadLine_cases (stod : Str → Except ConvError Double) (s : LibrarySystem) (line : Str) :
    loadLine stod s line = s ∨ ∃ book, loadLine stod s line = addBook s book := by
  unfold loadLine
  by_cases h1 : line = []
  · exact Or.inl (by simp [h1])
  · by_cases h2 : (readFields line).price_str = [] ∨ (readFields line).quantity_str = []
    · exact Or.inl (by simp [h1, h2])
    · cases h3 : stod (readFields line).price_str with
      | error _ => exact Or.inl (by simp [h1, h2, h3])
      | ok price =>
        cases h4 : stoi (readFields line).quantity_str with
        | error _ => exact Or.inl (by simp [h1, h2, h3, h4])
        | ok quantity =>
          exact Or.inr ⟨Book.new (readFields line).isbn (readFields line).title
            (readFields line).author price (CInt.ofInt quantity), by simp [h1, h2, h3, h4]⟩

theorem loadBooksFromCSV_invariant (stod : Str → Except ConvError Double) (s : LibrarySystem)
    (file : Option (List Str)) (hwf : s.books_by_isbn.WF) (hk : s.books_by_isbn.Keyed) :
    (loadBooksFromCSV stod s file).books_by_isbn.WF ∧
      (loadBooksFromCSV stod s file).books_by_isbn.Keyed := by
  cases file with
  | none => exact ⟨hwf, hk⟩
  | some lines =>
    simp only [loadBooksFromCSV]
    induction lines generalizing s with
    | nil => exact ⟨hwf, hk⟩
    | cons line rest ih =>
      simp only [List.foldl_cons]
      rcases loadLine_cases stod s line with h | ⟨book, h⟩
      · rw [h]
        exact ih s hwf hk
      · rw [h]
        exact ih _ (addBook_invariant s book hwf hk).1 (addBook_invariant s book hwf hk).2

/-- Every state of a running library has a well-formed store whose entries sit
under their own `ISBN`. -/
theorem Reachable.invariant (s : LibrarySystem) (h : Reachable s) :
    s.books_by_isbn.WF ∧ s.books_by_isbn.Keyed := by
  induction h with
  | init => exact ⟨List.nodup_nil, fun e he => absurd he (List.not_mem_nil e)⟩
  | addBook s book _ ih => exact addBook_invariant s book ih.1 ih.2
  | loadBooksFromCSV stod s file _ ih => exact loadBooksFromCSV_invariant stod s file ih.1 ih.2
  | reserveBook s title _ ih => exact ih
  | lendBook s _ ih => exact lendBook_invariant s ih.1 ih.2
  | returnBook s _ ih => exact returnBook_invariant s ih.1 ih.2

/-! ## Lending -/

/-- C2, as stated, fails: with reservations for "Emma" (no copy available) and
then "Dune", `lendBook` reports `Unavailable "Emma"` and the queue becomes
"Dune", "Emma": the unavailable title has moved behind the other reservation. -/
theorem lendBook_unavailable_reorders :
    emmaThenDune.reservation_queue = ["Emma".toList, "Dune".toList] ∧
      (emmaThenDune.books_by_isbn.deref 1).Quantity = 0 ∧
      getBookByTitle emmaThenDune.books_by_isbn "Emma".toList = some 1 ∧
      (lendBook emmaThenDune).1 = .Unavailable "Emma".toList ∧
      (lendBook emmaThenDune).2.reservation_queue = ["Dune".toList, "Emma".toList] ∧
      (lendBook emmaThenDune).2.reservation_queue ≠ emmaThenDune.reservation_queue := by
  decide

/-- A list keeps its value when its head moves to its back exactly when all its
other elements equal the head. -/
theorem append_singleton_eq_cons (t : Str) (queue : List Str) :
    queue ++ [t] = t :: queue ↔ ∀ x ∈ queue, x = t := by
  induction queue with
  | nil => simp
  | cons y rest ih =>
    simp only [List.cons_append, List.cons.injEq, List.mem_cons, forall_eq_or_imp]
    constructor
    · rintro ⟨h1, h2⟩
      subst h1
      exact ⟨rfl, ih.mp h2⟩
    · rintro ⟨h1, h2⟩
      subst h1
      exact ⟨rfl, ih.mpr h2⟩

/-- C2, amended. When the front reservation `t` resolves to a book with zero
available copies, `lendBook` reports `Unavailable t` and moves `t` from the
front of the queue to its back, the other reservations keeping their order.
The queue after the call equals the queue before it exactly when every other
reservation is for the same title `t`, which covers the queue that holds `t`
alone.  Store, title tree and ledger are unchanged. -/
theorem lendBook_unavailable (s : LibrarySystem) (t : Str) (queue : List Str) (p : Nat)
    (k : Str) (e : Book) (hq : s.reservation_queue = t :: queue)
    (hf : getBookByTitle s.books_by_isbn t = some p)
    (he : s.books_by_isbn[p]? = some (k, e)) (hzero : e.Quantity = 0) :
    (lendBook s).1 = .Unavailable t ∧
      (lendBook s).2.reservation_queue = queue ++ [t] ∧
      ((lendBook s).2.reservation_queue = s.reservation_queue ↔ ∀ x ∈ queue, x = t) ∧
      (queue = [] → (lendBook s).2.reservation_queue = s.reservation_queue) ∧
      (lendBook s).2.books_by_isbn = s.books_by_isbn ∧
      (lendBook s).2.bst_root = s.bst_root ∧
      (lendBook s).2.recently_borrowed = s.recently_borrowed := by
  have hd : ¬ 0 < (s.books_by_isbn.deref p).Quantity := by
    rw [Store.deref_eq _ _ _ _ he, hzero]
    decide
  rw [lendBook_unavailable_eq s t queue p hq hf hd]
  refine ⟨rfl, rfl, ?_, ?_, rfl, rfl, rfl⟩
  · simp only [hq]
    exact append_singleton_eq_cons t queue
  · intro hnil
    simp [hq, hnil]

theorem lendBook_unavailable_witness :
    (emmaThenDune.reservation_queue = ["Emma".toList, "Dune".toList] ∧
      getBookByTitle emmaThenDune.books_by_isbn "Emma".toList = some 1 ∧
      emmaThenDune.books_by_isbn[1]? = some ("X2".toList, emma) ∧ emma.Quantity = 0) ∧
    ((lendBook emmaThenDune).1 = .Unavailable "Emma".toList ∧
      (lendBook emmaThenDune).2.reservation_queue = ["Dune".toList] ++ ["Emma".toList] ∧
      ((lendBook emmaThenDune).2.reservation_queue = emmaThenDune.reservation_queue ↔
        ∀ x ∈ ["Dune".toList], x = "Emma".toList) ∧
      (["Dune".toList] = [] →
        (lendBook emmaThenDune).2.reservation_queue = emmaThenDune.reservation_queue) ∧
      (lendBook emmaThenDune).2.books_by_isbn = emmaThenDune.books_by_isbn ∧
      (lendBook emmaThenDune).2.bst_root = emmaThenDune.bst_root ∧
      (lendBook emmaThenDune).2.recently_borrowed = emmaThenDune.recently_borrowed) :=
  ⟨⟨rfl, rfl, rfl, rfl⟩,
    lendBook_unavailable emmaThenDune "Emma".toList ["Dune".toList] 1 "X2".toList emma
      rfl rfl rfl rfl⟩

/-- A `Lent` outcome of `lendBook` comes from its successful branch. -/
theorem lendBook_lent_inv (s : LibrarySystem) (title : Str) (n : Int)
    (hl : (lendBook s).1 = .Lent title n) :
    ∃ t queue p k e, s.reservation_queue = t :: queue ∧
      getBookByTitle s.books_by_isbn t = some p ∧ s.books_by_isbn[p]? = some (k, e) ∧
      toLowerCase (trim e.Title) = toLowerCase (trim t) ∧ 0 < e.Quantity := by
  cases hq : s.reservation_queue with
  | nil =>
    rw [lendBook_empty_eq s hq] at hl
    cases hl
  | cons t queue =>
    cases hf : getBookByTitle s.books_by_isbn t with
    | none =>
      rw [lendBook_notFound_eq s t queue hq hf] at hl
      cases hl
    | some p =>
      obtain ⟨⟨⟨k, e⟩, he, hte⟩, _⟩ := getBookByTitle_some _ _ _ hf
      by_cases hpos : 0 < e.Quantity
      · exact ⟨t, queue, p, k, e, rfl, hf, he, hte, hpos⟩
      · have hd : ¬ 0 < (s.books_by_isbn.deref p).Quantity := by
          rw [Store.deref_eq _ _ _ _ he]
          exact hpos
        rw [lendBook_unavailable_eq s t queue p hq hf hd] at hl
        cases hl

/-- Lend followed by return, for a store with distinct keys whose entries sit
under their own ISBN. -/
theorem lend_then_return (s : LibrarySystem) (hwf : s.books_by_isbn.WF)
    (hkey : s.books_by_isbn.Keyed) (title : Str) (n : Int)
    (hl : (lendBook s).1 = .Lent title n) :
    (returnBook (lendBook s).2).1 = .Returned title (n + 1) ∧
      (returnBook (lendBook s).2).2.books_by_isbn = s.books_by_isbn ∧
      (returnBook (lendBook s).2).2.recently_borrowed = s.recently_borrowed := by
  obtain ⟨t, queue, p, k, e, hq, hf, he, hte, hpos⟩ := lendBook_lent_inv s title n hl
  have hlt : p < s.books_by_isbn.length := (List.getElem?_eq_some.mp he).1
  rw [lendBook_lent_eq s t queue p k e hq hf he hpos hwf hkey] at hl ⊢
  simp only [Outcome.Lent.injEq] at hl
  obtain ⟨h1, h2⟩ := hl
  subst h1 h2
  have hf2 : getBookByTitle (s.books_by_isbn.set p
      (k, { e with Quantity := e.Quantity - 1, borrowedCount := e.borrowedCount + 1 }))
      e.Title = some p := by
    rw [getBookByTitle_set s.books_by_isbn e.Title p k e
      { e with Quantity := e.Quantity - 1, borrowedCount := e.borrowedCount + 1 } he rfl,
      getBookByTitle_congr _ _ _ hte]
    exact hf
  have he2 : (s.books_by_isbn.set p
      (k, { e with Quantity := e.Quantity - 1, borrowedCount := e.borrowedCount + 1 }))[p]? =
      some (k, { e with Quantity := e.Quantity - 1, borrowedCount := e.borrowedCount + 1 }) :=
    List.getElem?_set_self hlt
  rw [returnBook_returned_eq _ e s.recently_borrowed p k _ rfl hf2 he2]
  refine ⟨?_, ?_, rfl⟩
  · simp only [CInt.sub_add_cancel, Int.sub_add_cancel]
  · simp only [List.set_set, CInt.sub_add_cancel, CInt.add_sub_cancel]
    exact list_set_same _ _ _ he

/-- C3. Lend/return round trip: in every state of a running library in which
`lendBook` reports `Lent title n`, the `returnBook` that follows reports
`Returned title (n + 1)` (so never `ReturnError`), and afterwards the record
store and the lending ledger are what they were before the lend; in particular
the lent book has its former `Quantity` and `borrowedCount`. -/
theorem lend_return_roundtrip (s : LibrarySystem) (hr : Reachable s) (title : Str) (n : Int)
    (hl : (lendBook s).1 = .Lent title n) :
    (returnBook (lendBook s).2).1 = .Returned title (n + 1) ∧
      (returnBook (lendBook s).2).2.books_by_isbn = s.books_by_isbn ∧
      (returnBook (lendBook s).2).2.recently_borrowed = s.recently_borrowed :=
  lend_then_return s (Reachable.invariant s hr).1 (Reachable.invariant s hr).2 title n hl

theorem lend_return_roundtrip_witness :
    (Reachable duneThenEmma ∧ (lendBook duneThenEmma).1 = .Lent "Dune".toList 0) ∧
    ((returnBook (lendBook duneThenEmma).2).1 = .Returned "Dune".toList (0 + 1) ∧
      (returnBook (lendBook duneThenEmma).2).2.books_by_isbn = duneThenEmma.books_by_isbn ∧
      (returnBook (lendBook duneThenEmma).2).2.recently_borrowed =
        duneThenEmma.recently_borrowed) :=
  have hr : Reachable duneThenEmma :=
    Reachable.reserveBook _ _ (Reachable.reserveBook _ _
      (Reachable.addBook _ _ (Reachable.addBook _ _ Reachable.init)))
  ⟨⟨hr, rfl⟩, lend_return_roundtrip duneThenEmma hr "Dune".toList 0 rfl⟩

/-! ## The title tree -/

theorem mem_inorder_insert_bst (root : BSTNode) (book x : Book) :
    x ∈ (insert_bst root book).inorder ↔ x = book ∨ x ∈ root.inorder := by
  induction root with
  | nullptr => simp [insert_bst, BSTNode.inorder]
  | node b left right ihl ihr =>
    simp only [insert_bst]
    split
    · simp only [BSTNode.inorder, List.mem_append, List.mem_cons, ihl]
      tauto
    · simp only [BSTNode.inorder, List.mem_append, List.mem_cons, ihr]
      tauto

theorem ordered_insert_bst (root : BSTNode) (book : Book) (h : root.Ordered) :
    (insert_bst root book).Ordered := by
  induction root with
  | nullptr => simp [insert_bst, BSTNode.Ordered, BSTNode.inorder]
  | node b left right ihl ihr =>
    obtain ⟨hl, hr, hol, hor⟩ := h
    simp only [insert_bst]
    split
    · rename_i hlt
      refine ⟨?_, hr, ihl hol, hor⟩
      intro x hx
      rcases (mem_inorder_insert_bst left book x).mp hx with h1 | h1
      · rw [h1]
        exact hlt
      · exact hl x h1
    · rename_i hge
      refine ⟨hl, ?_, hol, ihr hor⟩
      intro x hx
      rcases (mem_inorder_insert_bst right book x).mp hx with h1 | h1
      · rw [h1]
        simpa using hge
      · exact hr x h1

/-- What `search_bst` returns is a node of the tree carrying the title asked
for. -/
theorem search_bst_node (root : BSTNode) (title : Str) (b : Book) (left right : BSTNode)
    (h : search_bst root title = .node b left right) :
    b ∈ root.inorder ∧ b.Title = title := by
  induction root with
  | nullptr => simp [search_bst] at h
  | node b1 l1 r1 ihl ihr =>
    simp only [search_bst] at h
    split at h
    · rename_i heq
      simp only [BSTNode.node.injEq] at h
      obtain ⟨h1, _, _⟩ := h
      subst h1
      exact ⟨by simp [BSTNode.inorder], heq⟩
    · split at h
      · obtain ⟨hm, ht⟩ := ihl h
        exact ⟨by simp [BSTNode.inorder, hm], ht⟩
      · obtain ⟨hm, ht⟩ := ihr h
        exact ⟨by simp [BSTNode.inorder, hm], ht⟩

/-- In an ordered tree `search_bst` finds every title that occurs. -/
theorem search_bst_complete (root : BSTNode) (title : Str) (ho : root.Ordered) (x : Book)
    (hx : x ∈ root.inorder) (ht : x.Title = title) : search_bst root title ≠ .nullptr := by
  induction root with
  | nullptr => simp [BSTNode.inorder] at hx
  | node b left right ihl ihr =>
    obtain ⟨hl, hr, hol, hor⟩ := ho
    simp only [search_bst]
    split
    · simp
    · rename_i hne
      simp only [BSTNode.inorder, List.mem_append, List.mem_cons] at hx
      split
      · rename_i hlt
        rcases hx with h1 | h1 | h1
        · exact ihl hol h1
        · exact absurd (h1 ▸ ht) (fun hc => hne hc)
        · have := hr x h1
          rw [ht, hlt] at this
          cases this
      · rename_i hge
        rcases hx with h1 | h1 | h1
        · have := hl x h1
          rw [ht] at this
          exact absurd this hge
        · exact absurd (h1 ▸ ht) (fun hc => hne hc)
        · exact ihr hor h1

theorem foldl_insert_bst (books : List Book) (root : BSTNode) (ho : root.Ordered) :
    (books.foldl insert_bst root).Ordered ∧
      ∀ x, x ∈ (books.foldl insert_bst root).inorder ↔ x ∈ books ∨ x ∈ root.inorder := by
  induction books generalizing root with
  | nil => simp [ho]
  | cons b rest ih =>
    obtain ⟨h1, h2⟩ := ih (insert_bst root b) (ordered_insert_bst root b ho)
    refine ⟨h1, ?_⟩
    intro x
    simp only [List.foldl_cons, h2, mem_inorder_insert_bst, List.mem_cons]
    tauto

/-- C4. Title index search is sound and complete: after inserting any finite
sequence of books with `insert_bst` into the empty tree, `search_bst` returns a
node for the query `t` exactly when some inserted book has `Title` equal to `t`
(equality of strings: case-sensitive, nothing trimmed), and the book of a
returned node is an inserted book with `Title` equal to `t`. -/
theorem search_bst_sound_complete (books : List Book) (t : Str) :
    (search_bst (books.foldl insert_bst .nullptr) t ≠ .nullptr ↔
      ∃ b ∈ books, b.Title = t) ∧
    (∀ b left right, search_bst (books.foldl insert_bst .nullptr) t = .node b left right →
      b ∈ books ∧ b.Title = t) := by
  obtain ⟨ho, hm⟩ := foldl_insert_bst books .nullptr trivial
  have hsound : ∀ b left right,
      search_bst (books.foldl insert_bst .nullptr) t = .node b left right →
      b ∈ books ∧ b.Title = t := by
    intro b left right h
    obtain ⟨h1, h2⟩ := search_bst_node _ _ _ _ _ h
    rcases (hm b).mp h1 with h3 | h3
    · exact ⟨h3, h2⟩
    · simp [BSTNode.inorder] at h3
  refine ⟨⟨?_, ?_⟩, hsound⟩
  · intro hne
    cases hs : search_bst (books.foldl insert_bst .nullptr) t with
    | nullptr => exact absurd hs hne
    | node b left right => exact ⟨b, hsound b left right hs⟩
  · rintro ⟨b, hb, hbt⟩
    exact search_bst_complete _ _ ho b ((hm b).mpr (Or.inl hb)) hbt

/-! ## Unknown titles, returns, reservations -/

/-- C5. Unknown titles are dropped: when the queue is `t :: queue` and no store
entry matches `t` under the trimmed, lower-cased comparison, `lendBook` reports
`BookNotFound t`, the queue becomes `queue` (the title is not queued again), and
the record store and the lending ledger are unchanged. -/
theorem lendBook_unknown_title (s : LibrarySystem) (t : Str) (queue : List Str)
    (hq : s.reservation_queue = t :: queue)
    (hno : ∀ e ∈ s.books_by_isbn, toLowerCase (trim e.2.Title) ≠ toLowerCase (trim t)) :
    (lendBook s).1 = .BookNotFound t ∧
      (lendBook s).2.reservation_queue = queue ∧
      (lendBook s).2.books_by_isbn = s.books_by_isbn ∧
      (lendBook s).2.recently_borrowed = s.recently_borrowed := by
  rw [lendBook_notFound_eq s t queue hq ((getBookByTitle_none _ _).mpr hno)]
  exact ⟨rfl, rfl, rfl, rfl⟩

theorem lendBook_unknown_title_witness :
    ((reserveBook twoBooks "Ulysses".toList).reservation_queue = ["Ulysses".toList] ∧
      ∀ e ∈ (reserveBook twoBooks "Ulysses".toList).books_by_isbn,
        toLowerCase (trim e.2.Title) ≠ toLowerCase (trim "Ulysses".toList)) ∧
    ((lendBook (reserveBook twoBooks "Ulysses".toList)).1 = .BookNotFound "Ulysses".toList ∧
      (lendBook (reserveBook twoBooks "Ulysses".toList)).2.reservation_queue = [] ∧
      (lendBook (reserveBook twoBooks "Ulysses".toList)).2.books_by_isbn =
        (reserveBook twoBooks "Ulysses".toList).books_by_isbn ∧
      (lendBook (reserveBook twoBooks "Ulysses".toList)).2.recently_borrowed =
        (reserveBook twoBooks "Ulysses".toList).recently_borrowed) :=
  ⟨⟨rfl, by decide⟩,
    lendBook_unknown_title (reserveBook twoBooks "Ulysses".toList) "Ulysses".toList [] rfl
      (by decide)⟩

/-- C7, as stated, fails: in the library `duneMaxAddedAgain`, a state of a
running library, the top snapshot resolves to the entry under "X1" with
`Quantity` 2147483647; `returnBook` reports -2147483648 available copies and
leaves the entry with `Quantity` -2147483648, not with one copy more. -/
theorem returnBook_overflows :
    Reachable duneMaxAddedAgain ∧
      (duneMaxAddedAgain.recently_borrowed = [duneMax] ∧
        getBookByTitle duneMaxAddedAgain.books_by_isbn duneMax.Title = some 0 ∧
        duneMaxAddedAgain.books_by_isbn[0]? = some ("X1".toList, duneMax) ∧
        duneMax.Quantity.toInt = 2147483647 ∧
        (returnBook duneMaxAddedAgain).1 = .Returned "Dune".toList (-2147483648) ∧
        ((returnBook duneMaxAddedAgain).2.books_by_isbn.deref 0).Quantity.toInt =
          -2147483648 ∧
        ((returnBook duneMaxAddedAgain).2.books_by_isbn.deref 0).Quantity.toInt ≠
          duneMax.Quantity.toInt + 1) :=
  ⟨Reachable.addBook _ _ (Reachable.lendBook _ (Reachable.reserveBook _ _
      (Reachable.addBook _ _ Reachable.init))), by decide⟩

/-- C7, amended. Return is last-in first-out and acts on the live entry: when
the ledger is `top :: stack` and the title of `top` resolves to the store entry
`(k, e)` at position `p`, with `e.Quantity` below 2147483647 and
`e.borrowedCount` above -2147483648 (the ends of the `int` range), `returnBook`
leaves `stack` as the ledger, turns the entry at `p` into `e` with
`borrowedCount` lowered by one and `Quantity` raised by one, reports
`Returned e.Title (e.Quantity + 1)`, and changes neither the reservation queue
nor any other store entry. -/
theorem returnBook_lifo (s : LibrarySystem) (top : Book) (stack : List Book) (p : Nat)
    (k : Str) (e : Book) (hl : s.recently_borrowed = top :: stack)
    (hf : getBookByTitle s.books_by_isbn top.Title = some p)
    (he : s.books_by_isbn[p]? = some (k, e))
    (hquantity : e.Quantity.toInt < 2147483647)
    (hborrowed : -2147483648 < e.borrowedCount.toInt) :
    (returnBook s).1 = .Returned e.Title (e.Quantity.toInt + 1) ∧
      (returnBook s).2.recently_borrowed = stack ∧
      (returnBook s).2.books_by_isbn[p]? =
        some (k, { e with borrowedCount := e.borrowedCount - 1, Quantity := e.Quantity + 1 }) ∧
      (e.borrowedCount - 1).toInt = e.borrowedCount.toInt - 1 ∧
      (e.Quantity + 1).toInt = e.Quantity.toInt + 1 ∧
      (∀ j, j ≠ p → (returnBook s).2.books_by_isbn[j]? = s.books_by_isbn[j]?) ∧
      (returnBook s).2.books_by_isbn.length = s.books_by_isbn.length ∧
      (returnBook s).2.reservation_queue = s.reservation_queue := by
  rw [returnBook_returned_eq s top stack p k e hl hf he]
  have hlt : p < s.books_by_isbn.length := (List.getElem?_eq_some.mp he).1
  refine ⟨?_, rfl, List.getElem?_set_self hlt, CInt.toInt_sub_one _ hborrowed,
    CInt.toInt_add_one _ hquantity, ?_, List.length_set _ _ _, rfl⟩
  · simp only [CInt.toInt_add_one _ hquantity]
  · intro j hj
    exact List.getElem?_set_ne (Ne.symm hj)

theorem returnBook_lifo_witness :
    ((lendBook duneThenEmma).2.recently_borrowed = dune :: [] ∧
      getBookByTitle (lendBook duneThenEmma).2.books_by_isbn dune.Title = some 0 ∧
      (lendBook duneThenEmma).2.books_by_isbn[0]? =
        some ("X1".toList, { dune with Quantity := 0, borrowedCount := 1 }) ∧
      (0 : CInt).toInt < 2147483647 ∧ -2147483648 < (1 : CInt).toInt) ∧
    ((returnBook (lendBook duneThenEmma).2).1 = .Returned "Dune".toList (0 + 1) ∧
      (returnBook (lendBook duneThenEmma).2).2.recently_borrowed = [] ∧
      (returnBook (lendBook duneThenEmma).2).2.books_by_isbn[0]? =
        some ("X1".toList, { dune with borrowedCount := 1 - 1, Quantity := 0 + 1 }) ∧
      ((1 : CInt) - 1).toInt = (1 : CInt).toInt - 1 ∧
      ((0 : CInt) + 1).toInt = (0 : CInt).toInt + 1 ∧
      (∀ j, j ≠ 0 → (returnBook (lendBook duneThenEmma).2).2.books_by_isbn[j]? =
        (lendBook duneThenEmma).2.books_by_isbn[j]?) ∧
      (returnBook (lendBook duneThenEmma).2).2.books_by_isbn.length =
        (lendBook duneThenEmma).2.books_by_isbn.length ∧
      (returnBook (lendBook duneThenEmma).2).2.reservation_queue =
        (lendBook duneThenEmma).2.reservation_queue) :=
  ⟨⟨rfl, rfl, rfl, by decide, by decide⟩,
    returnBook_lifo (lendBook duneThenEmma).2 dune [] 0 "X1".toList
      { dune with Quantity := 0, borrowedCount := 1 } rfl rfl rfl (by decide) (by decide)⟩

theorem foldl_reserveBook (ts : List Str) (s : LibrarySystem) :
    ts.foldl reserveBook s = { s with reservation_queue := s.reservation_queue ++ ts } := by
  induction ts generalizing s with
  | nil => simp
  | cons t rest ih => simp [List.foldl_cons, ih, reserveBook]

theorem printQueue_eq (q : List Str) : printQueue q = q := by
  induction q with
  | nil => rfl
  | cons t rest ih => simp [printQueue, ih]

/-- C8. Reservations are first-in first-out and always accepted: from a state
with queue `q`, calling `reserveBook` on each title of `ts` in order (whatever
the titles, repeated or not in the catalogue) gives the queue `q ++ ts` and
leaves the record store, the title tree and the lending ledger as they were;
`displayReservations` prints the queue from front to back and does not change
the state. -/
theorem reserveBook_fifo (s : LibrarySystem) (ts : List Str) :
    (ts.foldl reserveBook s).reservation_queue = s.reservation_queue ++ ts ∧
      (ts.foldl reserveBook s).books_by_isbn = s.books_by_isbn ∧
      (ts.foldl reserveBook s).bst_root = s.bst_root ∧
      (ts.foldl reserveBook s).recently_borrowed = s.recently_borrowed ∧
      displayReservations s = (s.reservation_queue, s) := by
  rw [foldl_reserveBook]
  refine ⟨rfl, rfl, rfl, rfl, ?_⟩
  simp [displayReservations, printQueue_eq]

/-! ## The title finder and the upsert -/

/-- The title finder in terms of the test it applies: `getBookByTitle` returns a
position for the query `t` exactly when some store entry passes the test
`toLowerCase (trim title) = toLowerCase (trim t)`; the entry returned passes it
and no entry before it in iteration order does. -/
theorem getBookByTitle_first_match (m : Store) (t : Str) :
    ((getBookByTitle m t).isSome ↔
      ∃ e ∈ m, toLowerCase (trim e.2.Title) = toLowerCase (trim t)) ∧
    (∀ p, getBookByTitle m t = some p →
      (∃ e, m[p]? = some e ∧ toLowerCase (trim e.2.Title) = toLowerCase (trim t)) ∧
        ∀ j e, j < p → m[j]? = some e →
          toLowerCase (trim e.2.Title) ≠ toLowerCase (trim t)) := by
  refine ⟨?_, fun p hp => getBookByTitle_some m t p hp⟩
  constructor
  · intro h
    obtain ⟨p, hp⟩ := Option.isSome_iff_exists.mp h
    obtain ⟨⟨e, he, hte⟩, _⟩ := getBookByTitle_some m t p hp
    exact ⟨e, List.getElem?_mem he, hte⟩
  · rintro ⟨e, he, hte⟩
    cases hg : getBookByTitle m t with
    | none => exact absurd hte ((getBookByTitle_none m t).mp hg e he)
    | some p => rfl

theorem foldl_addBook_get (books : List Book) (s : LibrarySystem) (i : Str) :
    (books.foldl addBook s).books_by_isbn.get i =
      (books.reverse.find? (fun b => decide (b.ISBN = i))).or (s.books_by_isbn.get i) := by
  induction books generalizing s with
  | nil => simp
  | cons b rest ih =>
    simp only [List.foldl_cons, ih, List.reverse_cons, List.find?_append]
    simp only [addBook, Store.get_assign]
    by_cases h : b.ISBN = i
    · simp [h, List.find?_cons]
      cases List.find? (fun b => decide (b.ISBN = i)) rest.reverse <;> simp
    · simp [h, List.find?_cons]

theorem foldl_addBook_keys (books : List Book) (s : LibrarySystem) (k : Str) :
    k ∈ (books.foldl addBook s).books_by_isbn.map Prod.fst ↔
      (∃ b ∈ books, b.ISBN = k) ∨ k ∈ s.books_by_isbn.map Prod.fst := by
  induction books generalizing s with
  | nil => simp
  | cons b rest ih =>
    simp only [List.foldl_cons, ih, addBook, Store.keys_assign]
    split
    · rename_i hmem
      constructor
      · rintro (⟨x, hx, hk⟩ | h)
        · exact Or.inl ⟨x, List.mem_cons_of_mem _ hx, hk⟩
        · exact Or.inr h
      · rintro (⟨x, hx, hk⟩ | h)
        · rcases List.mem_cons.mp hx with h1 | h1
          · subst h1
            exact Or.inr (hk ▸ hmem)
          · exact Or.inl ⟨x, h1, hk⟩
        · exact Or.inr h
    · simp only [List.mem_append, List.mem_cons, List.not_mem_nil, or_false, exists_eq_or_imp]
      constructor
      · rintro (h | h | h)
        · exact Or.inl (Or.inr h)
        · exact Or.inr h
        · exact Or.inl (Or.inl h.symm)
      · rintro ((h | h) | h)
        · exact Or.inr (Or.inr h.symm)
        · exact Or.inl h
        · exact Or.inr (Or.inl h)

theorem foldl_addBook_invariant (books : List Book) (s : LibrarySystem)
    (hwf : s.books_by_isbn.WF) (hk : s.books_by_isbn.Keyed) :
    (books.foldl addBook s).books_by_isbn.WF ∧ (books.foldl addBook s).books_by_isbn.Keyed := by
  induction books generalizing s with
  | nil => exact ⟨hwf, hk⟩
  | cons b rest ih =>
    exact ih _ (addBook_invariant s b hwf hk).1 (addBook_invariant s b hwf hk).2

/-- C6. Record store upsert: after any sequence of `addBook` calls on a new
library, looking up an identifier `i` in `books_by_isbn` gives the book of the
last call whose `ISBN` is `i`, and nothing when no call used `i`; the keys of
the store are pairwise distinct, they are exactly the `ISBN`s of the books
added (one entry for each distinct `ISBN`), and every entry is stored under its
own `ISBN`. -/
theorem addBook_upsert (books : List Book) (i : Str) :
    (books.foldl addBook LibrarySystem.init).books_by_isbn.get i =
        books.reverse.find? (fun b => decide (b.ISBN = i)) ∧
      (books.foldl addBook LibrarySystem.init).books_by_isbn.WF ∧
      (∀ k, k ∈ (books.foldl addBook LibrarySystem.init).books_by_isbn.map Prod.fst ↔
        ∃ b ∈ books, b.ISBN = k) ∧
      (books.foldl addBook LibrarySystem.init).books_by_isbn.length =
        ((books.map Book.ISBN).dedup).length ∧
      (books.foldl addBook LibrarySystem.init).books_by_isbn.Keyed := by
  have hinv := foldl_addBook_invariant books LibrarySystem.init List.nodup_nil
    (fun e he => absurd he (List.not_mem_nil e))
  have hkeys : ∀ k, k ∈ (books.foldl addBook LibrarySystem.init).books_by_isbn.map Prod.fst ↔
      ∃ b ∈ books, b.ISBN = k := by
    intro k
    rw [foldl_addBook_keys]
    simp [LibrarySystem.init]
  refine ⟨?_, hinv.1, hkeys, ?_, hinv.2⟩
  · rw [foldl_addBook_get]
    simp [LibrarySystem.init, Store.get_nil]
  · have hperm : ((books.foldl addBook LibrarySystem.init).books_by_isbn.map Prod.fst).Perm
        ((books.map Book.ISBN).dedup) := by
      rw [List.perm_ext_iff_of_nodup hinv.1 (List.nodup_dedup _)]
      intro k
      rw [hkeys k, List.mem_dedup, List.mem_map]
    simpa using hperm.length_eq

/-! ## Loading rows -/

theorem loadLine_rejected (stod : Str → Except ConvError Double) (s : LibrarySystem)
    (line : Str) (h : rejected stod line = true) : loadLine stod s line = s := by
  unfold loadLine
  by_cases h1 : line = []
  · simp [h1]
  · by_cases h2 : (readFields line).price_str = [] ∨ (readFields line).quantity_str = []
    · simp [h1, h2]
    · cases h3 : stod (readFields line).price_str with
      | error _ => simp [h1, h2, h3]
      | ok price =>
        cases h4 : stoi (readFields line).quantity_str with
        | error _ => simp [h1, h2, h3, h4]
        | ok quantity =>
          have h5 := not_or.mp h2
          simp [rejected, h3, h4, h5.1, h5.2] at h

theorem foldl_loadLine_filter (stod : Str → Except ConvError Double) (lines : List Str)
    (s : LibrarySystem) :
    lines.foldl (loadLine stod) s =
      (lines.filter (fun l => !rejected stod l)).foldl (loadLine stod) s := by
  induction lines generalizing s with
  | nil => rfl
  | cons line rest ih =>
    by_cases h : rejected stod line = true
    · simp only [List.foldl_cons, loadLine_rejected stod s line h, List.filter_cons, h,
        Bool.not_true, Bool.false_eq_true, if_false]
      exact ih s
    · have h2 : rejected stod line = false := by simpa using h
      simp only [List.foldl_cons, List.filter_cons, h2, Bool.not_false, if_true]
      exact ih _

/-- Without a leading integer `stoi` throws `invalid_argument`. -/
theorem stoi_invalid_argument (field : Str) (h : startsWithInteger field = false) :
    stoi field = .error .invalid_argument := by
  unfold startsWithInteger at h
  unfold stoi
  cases hd : field.dropWhile isspace with
  | nil => simp
  | cons c rest =>
    rw [hd] at h
    by_cases hs : c = '-' ∨ c = '+'
    · simp only [hs, if_true] at h
      cases rest with
      | nil =>
        rcases hs with hs | hs <;> simp [hs]
      | cons d rest2 =>
        simp only at h
        rcases hs with hs | hs <;> simp [hs, List.takeWhile, h]
    · simp only [hs, if_false] at h
      have h1 : ¬ c = '-' := fun hc => hs (Or.inl hc)
      have h2 : ¬ c = '+' := fun hc => hs (Or.inr hc)
      simp [h1, h2, List.takeWhile, h]

/-- C9, as stated, fails: the quantity field 12abc is not numeric, yet the row
is loaded, with quantity 12; the batch made of this row yields a catalogue with
one book, the batch without it the empty catalogue. -/
theorem loadBooksFromCSV_keeps_suffixed_quantity :
    (readFields rowSuffixedQuantity).quantity_str = "12abc".toList ∧
      specNumeric "12abc".toList = false ∧
      [rowSuffixedQuantity].filter (fun l => !specMalformed l) = [] ∧
      (loadBooksFromCSV stodSample LibrarySystem.init (some [rowSuffixedQuantity])).books_by_isbn =
        [("1".toList, Book.new "1".toList "Dune".toList "Frank Herbert".toList
          4621813488089437307 12)] ∧
      loadBooksFromCSV stodSample LibrarySystem.init (some [rowSuffixedQuantity]) ≠
        loadBooksFromCSV stodSample LibrarySystem.init
          (some ([rowSuffixedQuantity].filter (fun l => !specMalformed l))) := by
  decide

/-- C9, amended. For every batch of lines, `loadBooksFromCSV` produces the same
state (record store and title tree included) as on the batch without the
rejected lines: those whose trimmed price or quantity field is empty, or whose
price `stod` does not convert, or whose quantity `stoi` does not convert.  A
rejected line adds no book and the lines around it are processed as if it were
not there.  A quantity field without a leading integer is rejected; one that
only starts with an integer is converted from that integer. -/
theorem loadBooksFromCSV_drops_rejected (stod : Str → Except ConvError Double)
    (s : LibrarySystem) (lines : List Str) :
    loadBooksFromCSV stod s (some lines) =
        loadBooksFromCSV stod s (some (lines.filter (fun l => !rejected stod l))) ∧
      (∀ s1 line, rejected stod line = true → loadLine stod s1 line = s1) ∧
      (∀ before line after, rejected stod line = true →
        loadBooksFromCSV stod s (some (before ++ line :: after)) =
          loadBooksFromCSV stod s (some (before ++ after))) ∧
      (∀ line, startsWithInteger (readFields line).quantity_str = false →
        rejected stod line = true) := by
  refine ⟨foldl_loadLine_filter stod lines s, fun s1 line h => loadLine_rejected stod s1 line h,
    ?_, ?_⟩
  · intro before line after h
    simp only [loadBooksFromCSV, List.foldl_append, List.foldl_cons,
      loadLine_rejected stod _ line h]
  · intro line h
    simp [rejected, stoi_invalid_argument _ h]

theorem loadBooksFromCSV_drops_rejected_witness :
    rejected stodSample rowNoQuantity = true ∧
      loadBooksFromCSV stodSample LibrarySystem.init
          (some ([rowSuffixedQuantity] ++ rowNoQuantity :: [rowGood])) =
        loadBooksFromCSV stodSample LibrarySystem.init
          (some ([rowSuffixedQuantity] ++ [rowGood])) :=
  ⟨rfl, (loadBooksFromCSV_drops_rejected stodSample LibrarySystem.init []).2.2.1
    [rowSuffixedQuantity] rowNoQuantity [rowGood] rfl⟩

/-! ## Frame and snapshot facts of the workflow -/

/-- The successful branch of `lendBook` in any state, with the store written as
the source computes it. -/
theorem lendBook_lent_raw (s : LibrarySystem) (t : Str) (queue : List Str) (p : Nat)
    (hq : s.reservation_queue = t :: queue)
    (hf : getBookByTitle s.books_by_isbn t = some p)
    (hpos : 0 < (s.books_by_isbn.deref p).Quantity) :
    (lendBook s).2 =
      { s with
        reservation_queue := queue
        recently_borrowed := s.books_by_isbn.deref p :: s.recently_borrowed
        books_by_isbn :=
          ((s.books_by_isbn.subscript (s.books_by_isbn.deref p).ISBN).1.modifyAt
              (s.books_by_isbn.subscript (s.books_by_isbn.deref p).ISBN).2
              (fun b => { b with Quantity := b.Quantity - 1 })).modifyAt p
            (fun b => { b with borrowedCount := b.borrowedCount + 1 }) } := by
  simp only [lendBook, hq, hf, gt_iff_lt, hpos, if_true]

theorem lendBook_bst_root (s : LibrarySystem) : (lendBook s).2.bst_root = s.bst_root := by
  cases hq : s.reservation_queue with
  | nil => rw [lendBook_empty_eq s hq]
  | cons t queue =>
    cases hf : getBookByTitle s.books_by_isbn t with
    | none => rw [lendBook_notFound_eq s t queue hq hf]
    | some p =>
      by_cases hpos : 0 < (s.books_by_isbn.deref p).Quantity
      · rw [lendBook_lent_raw s t queue p hq hf hpos]
      · rw [lendBook_unavailable_eq s t queue p hq hf hpos]

theorem returnBook_bst_root (s : LibrarySystem) : (returnBook s).2.bst_root = s.bst_root := by
  cases hl : s.recently_borrowed with
  | nil => rw [returnBook_empty_eq s hl]
  | cons top stack =>
    cases hf : getBookByTitle s.books_by_isbn top.Title with
    | none => rw [returnBook_error_eq s top stack hl hf]
    | some p =>
      obtain ⟨⟨⟨k, e⟩, he, _⟩, _⟩ := getBookByTitle_some _ _ _ hf
      rw [returnBook_returned_eq s top stack p k e hl hf he]

theorem call_bst_root (s : LibrarySystem) (c : WorkflowCall) :
    (call s c).bst_root = s.bst_root := by
  cases c with
  | reserveBook title => rfl
  | lendBook => exact lendBook_bst_root s
  | returnBook => exact returnBook_bst_root s

theorem foldl_call_bst_root (calls : List WorkflowCall) (s : LibrarySystem) :
    (calls.foldl call s).bst_root = s.bst_root := by
  induction calls generalizing s with
  | nil => rfl
  | cons c rest ih => rw [List.foldl_cons, ih, call_bst_root]

theorem foldl_addBook_bst_root (books : List Book) (s : LibrarySystem) :
    (books.foldl addBook s).bst_root = books.foldl insert_bst s.bst_root := by
  induction books generalizing s with
  | nil => rfl
  | cons b rest ih => rw [List.foldl_cons, ih, List.foldl_cons]; rfl

/-- C13. Operating on an empty structure is reported and changes nothing: with
an empty reservation queue `lendBook` reports `NoBooksToLend`, with an empty
lending ledger `returnBook` reports `NoBooksToReturn`, and in both cases the
state after the call (record store, title tree, queue and ledger) is the state
before it. -/
theorem empty_structure_reported (s : LibrarySystem) :
    (s.reservation_queue = [] → lendBook s = (.NoBooksToLend, s)) ∧
      (s.recently_borrowed = [] → returnBook s = (.NoBooksToReturn, s)) :=
  ⟨lendBook_empty_eq s, returnBook_empty_eq s⟩

theorem empty_structure_reported_witness :
    (twoBooks.reservation_queue = [] ∧ twoBooks.recently_borrowed = []) ∧
      lendBook twoBooks = (.NoBooksToLend, twoBooks) ∧
      returnBook twoBooks = (.NoBooksToReturn, twoBooks) :=
  ⟨⟨rfl, rfl⟩, (empty_structure_reported twoBooks).1 rfl,
    (empty_structure_reported twoBooks).2 rfl⟩

/-- C16. The ledger snapshot is the pre-lend state: whenever `lendBook` reports
`Lent`, the front reservation resolved to a store entry `(k, e)` of the state
before the call, the new top of the lending ledger is `e` itself, field for
field (so with the `Quantity` and `borrowedCount` from before the call), and
below it the ledger is what it was. -/
theorem lendBook_snapshot (s : LibrarySystem) (title : Str) (n : Int)
    (hl : (lendBook s).1 = .Lent title n) :
    ∃ t queue p k e, s.reservation_queue = t :: queue ∧
      getBookByTitle s.books_by_isbn t = some p ∧ s.books_by_isbn[p]? = some (k, e) ∧
      (lendBook s).2.recently_borrowed = e :: s.recently_borrowed := by
  obtain ⟨t, queue, p, k, e, hq, hf, he, _, hpos⟩ := lendBook_lent_inv s title n hl
  have hd : s.books_by_isbn.deref p = e := Store.deref_eq _ _ _ _ he
  refine ⟨t, queue, p, k, e, hq, hf, he, ?_⟩
  rw [lendBook_lent_raw s t queue p hq hf (hd ▸ hpos), hd]

theorem lendBook_snapshot_witness :
    (lendBook duneThenEmma).1 = .Lent "Dune".toList 0 ∧
      ∃ t queue p k e, duneThenEmma.reservation_queue = t :: queue ∧
        getBookByTitle duneThenEmma.books_by_isbn t = some p ∧
        duneThenEmma.books_by_isbn[p]? = some (k, e) ∧
        (lendBook duneThenEmma).2.recently_borrowed = e :: duneThenEmma.recently_borrowed :=
  ⟨rfl, lendBook_snapshot duneThenEmma "Dune".toList 0 rfl⟩

/-- C18. Lending and returning never touch the title index: each of
`reserveBook`, `lendBook` and `returnBook` leaves the tree at `bst_root` as it
is, in every state.  Hence after the books `books` have been added to a new
library and any calls of the three methods have followed, the tree is still the
one built by inserting `books`, `searchByTitle` prints what it printed before
the calls, and a node found by `search_bst` carries a book exactly as it was
passed to `addBook`. -/
theorem workflow_keeps_title_index (books : List Book) (calls : List WorkflowCall) (t : Str) :
    (∀ s title, (reserveBook s title).bst_root = s.bst_root) ∧
      (∀ s, (lendBook s).2.bst_root = s.bst_root) ∧
      (∀ s, (returnBook s).2.bst_root = s.bst_root) ∧
      (calls.foldl call (books.foldl addBook LibrarySystem.init)).bst_root =
        books.foldl insert_bst .nullptr ∧
      searchByTitle (calls.foldl call (books.foldl addBook LibrarySystem.init)) t =
        searchByTitle (books.foldl addBook LibrarySystem.init) t ∧
      (∀ b left right,
        search_bst (calls.foldl call (books.foldl addBook LibrarySystem.init)).bst_root t =
          .node b left right → b ∈ books ∧ b.Title = t) := by
  have hroot : (calls.foldl call (books.foldl addBook LibrarySystem.init)).bst_root =
      books.foldl insert_bst .nullptr := by
    rw [foldl_call_bst_root, foldl_addBook_bst_root]
    rfl
  refine ⟨fun _ _ => rfl, lendBook_bst_root, returnBook_bst_root, hroot, ?_, ?_⟩
  · simp only [searchByTitle, foldl_call_bst_root]
  · intro b left right h
    rw [hroot] at h
    obtain ⟨h1, h2⟩ := search_bst_node _ _ _ _ _ h
    rcases ((foldl_insert_bst books .nullptr trivial).2 b).mp h1 with h3 | h3
    · exact ⟨h3, h2⟩
    · simp [BSTNode.inorder] at h3

/-- For C18: after "Dune" has been lent, the tree still shows the book with the
one copy it was added with, while the store entry has none left. -/
theorem workflow_keeps_title_index_witness :
    searchByTitle (([WorkflowCall.reserveBook "Dune".toList, WorkflowCall.lendBook]).foldl call
        ([dune].foldl addBook LibrarySystem.init)) "Dune".toList =
      some ("Dune".toList, "Frank Herbert".toList, 1) ∧
    (([WorkflowCall.reserveBook "Dune".toList, WorkflowCall.lendBook]).foldl call
        ([dune].foldl addBook LibrarySystem.init)).books_by_isbn.get "X1".toList =
      some { dune with Quantity := 0, borrowedCount := 1 } :=
  ⟨((workflow_keeps_title_index [dune]
      [WorkflowCall.reserveBook "Dune".toList, WorkflowCall.lendBook] "Dune".toList).2.2.2.2.1).trans
      rfl, rfl⟩

/-! ## Counters -/

/-- C11 at its failing input: add "Dune" (one copy, no borrow), reserve it, lend
it, add the same book again, return.  The second `addBook` replaces the live
entry by a fresh one with `borrowedCount` 0 while the ledger still holds the
snapshot, and `returnBook` lowers `borrowedCount` without a check: the entry
ends with `borrowedCount` -1 and `Quantity` 2. -/
theorem returnBook_negative_borrowedCount :
    ReachableBy (fun b => b.borrowedCount = 0) (returnBook duneAddedAgain).2 ∧
      (returnBook duneAddedAgain).1 = .Returned "Dune".toList 2 ∧
      (returnBook duneAddedAgain).2.books_by_isbn =
        [("X1".toList, { dune with Quantity := 2, borrowedCount := -1 })] :=
  ⟨ReachableBy.returnBook _ (ReachableBy.addBook _ _ rfl (ReachableBy.lendBook _
      (ReachableBy.reserveBook _ _ (ReachableBy.addBook _ _ rfl ReachableBy.init)))),
    by decide, by decide⟩

/-! ## The order on titles -/

theorem str_lt_irrefl (a : Str) : str_lt a a = false := by
  induction a with
  | nil => rfl
  | cons c cs ih => simp [str_lt, ih]

theorem str_lt_asymm (a b : Str) (h : str_lt a b = true) : str_lt b a = false := by
  induction a generalizing b with
  | nil =>
    cases b with
    | nil => rfl
    | cons d ds => rfl
  | cons c cs ih =>
    cases b with
    | nil => simp [str_lt] at h
    | cons d ds =>
      simp only [str_lt] at h ⊢
      by_cases h1 : c.toNat < d.toNat
      · have h2 : ¬ d.toNat < c.toNat := by omega
        simp [h2, h1]
      · by_cases h2 : d.toNat < c.toNat
        · simp [h1, h2] at h
        · simp only [h1, h2, if_false] at h ⊢
          exact ih ds h

theorem str_lt_trans (a b c : Str) (h1 : str_lt a b = true) (h2 : str_lt b c = true) :
    str_lt a c = true := by
  induction a generalizing b c with
  | nil =>
    cases c with
    | nil =>
      cases b with
      | nil => simp [str_lt] at h1
      | cons d ds => simp [str_lt] at h2
    | cons e es => rfl
  | cons x xs ih =>
    cases b with
    | nil => simp [str_lt] at h1
    | cons d ds =>
      cases c with
      | nil => simp [str_lt] at h2
      | cons e es =>
        simp only [str_lt] at h1 h2 ⊢
        by_cases hxd : x.toNat < d.toNat
        · by_cases hde : d.toNat < e.toNat
          · have : x.toNat < e.toNat := by omega
            simp [this]
          · by_cases hed : e.toNat < d.toNat
            · simp [hde, hed] at h2
            · have : x.toNat < e.toNat := by omega
              simp [this]
        · by_cases hdx : d.toNat < x.toNat
          · simp [hxd, hdx] at h1
          · simp only [hxd, hdx, if_false] at h1
            by_cases hde : d.toNat < e.toNat
            · have : x.toNat < e.toNat := by omega
              simp [this]
            · by_cases hed : e.toNat < d.toNat
              · simp [hde, hed] at h2
              · simp only [hde, hed, if_false] at h2
                have h3 : ¬ x.toNat < e.toNat := by omega
                have h4 : ¬ e.toNat < x.toNat := by omega
                simp only [h3, h4, if_false]
                exact ih ds es h1 h2

/-- Two strings are equal when neither is smaller than the other: the order is
total. -/
theorem str_lt_total (a b : Str) (h1 : str_lt a b = false) (h2 : str_lt b a = false) :
    a = b := by
  induction a generalizing b with
  | nil =>
    cases b with
    | nil => rfl
    | cons d ds => simp [str_lt] at h1
  | cons c cs ih =>
    cases b with
    | nil => simp [str_lt] at h2
    | cons d ds =>
      simp only [str_lt] at h1 h2
      by_cases hcd : c.toNat < d.toNat
      · simp [hcd] at h1
      · by_cases hdc : d.toNat < c.toNat
        · simp [hdc] at h2
        · simp only [hcd, hdc, if_false] at h1 h2
          have hc : c = d := by
            apply Char.ext
            apply UInt32.ext
            have : c.toNat = d.toNat := by omega
            exact this
          rw [hc, ih ds h1 h2]

/-! ## The in-order sequence of the title tree -/

theorem inorder_length (root : BSTNode) : root.inorder.length = root.size := by
  induction root with
  | nullptr => rfl
  | node b left right ihl ihr =>
    simp only [BSTNode.inorder, BSTNode.size, List.length_append, List.length_cons, ihl, ihr]
    omega

theorem inorder_insert_bst_perm (root : BSTNode) (book : Book) :
    (insert_bst root book).inorder.Perm (book :: root.inorder) := by
  induction root with
  | nullptr => simp [insert_bst, BSTNode.inorder]
  | node b left right ihl ihr =>
    simp only [insert_bst]
    split
    · simp only [BSTNode.inorder]
      exact (List.Perm.append_right _ ihl).trans (by simp)
    · simp only [BSTNode.inorder]
      have h1 : (left.inorder ++ b :: (insert_bst right book).inorder).Perm
          (left.inorder ++ b :: book :: right.inorder) :=
        List.Perm.append_left _ (List.Perm.cons _ ihr)
      refine h1.trans ?_
      have h2 : (left.inorder ++ b :: book :: right.inorder).Perm
          (left.inorder ++ book :: b :: right.inorder) :=
        List.Perm.append_left _ (List.Perm.swap _ _ _)
      exact h2.trans List.perm_middle

/-- The in-order sequence of an ordered tree is sorted by title. -/
theorem inorder_sorted (root : BSTNode) (ho : root.Ordered) :
    root.inorder.Pairwise (fun a b => str_lt b.Title a.Title = false) := by
  induction root with
  | nullptr => exact List.Pairwise.nil
  | node b left right ihl ihr =>
    obtain ⟨hl, hr, hol, hor⟩ := ho
    simp only [BSTNode.inorder, List.pairwise_append, List.pairwise_cons, List.mem_cons]
    refine ⟨ihl hol, ⟨hr, ihr hor⟩, ?_⟩
    intro x hx y hy
    rcases hy with hy | hy
    · rw [hy]
      exact str_lt_asymm _ _ (hl x hx)
    · cases hyx : str_lt y.Title x.Title with
      | false => rfl
      | true =>
        have := str_lt_trans _ _ _ hyx (hl x hx)
        rw [hr y hy] at this
        cases this

/-- Insertion is stable: among the books with one title, the new book comes
last in the in-order sequence. -/
theorem inorder_insert_bst_filter (root : BSTNode) (ho : root.Ordered) (book : Book) (t : Str) :
    (insert_bst root book).inorder.filter (fun x => decide (x.Title = t)) =
      root.inorder.filter (fun x => decide (x.Title = t)) ++
        [book].filter (fun x => decide (x.Title = t)) := by
  induction root with
  | nullptr => simp [insert_bst, BSTNode.inorder]
  | node b left right ihl ihr =>
    obtain ⟨hl, hr, hol, hor⟩ := ho
    simp only [insert_bst]
    split
    · rename_i hlt
      simp only [BSTNode.inorder, List.filter_append, ihl hol, List.append_assoc]
      by_cases hbt : book.Title = t
      · have hnone : (b :: right.inorder).filter (fun x => decide (x.Title = t)) = [] := by
          rw [List.filter_eq_nil_iff]
          intro y hy
          simp only [decide_eq_true_eq]
          intro hyt
          rcases List.mem_cons.mp hy with h1 | h1
          · rw [h1] at hyt
            rw [hbt, ← hyt, str_lt_irrefl] at hlt
            cases hlt
          · have := hr y h1
            rw [hyt, ← hbt, hlt] at this
            cases this
        rw [hnone]
        simp
      · simp [List.filter_cons, hbt]
    · simp only [BSTNode.inorder, List.filter_append, List.filter_cons, ihr hor,
        List.append_assoc]
      split <;> simp

theorem foldl_insert_bst_perm (books : List Book) (root : BSTNode) :
    (books.foldl insert_bst root).inorder.Perm (root.inorder ++ books) := by
  induction books generalizing root with
  | nil => simp
  | cons b rest ih =>
    simp only [List.foldl_cons]
    refine (ih (insert_bst root b)).trans ?_
    refine (List.Perm.append_right _ (inorder_insert_bst_perm root b)).trans ?_
    have hmid : (root.inorder ++ b :: rest).Perm (b :: (root.inorder ++ rest)) :=
      List.perm_middle
    simpa using hmid.symm

theorem foldl_insert_bst_filter (books : List Book) (root : BSTNode) (ho : root.Ordered)
    (t : Str) :
    (books.foldl insert_bst root).inorder.filter (fun x => decide (x.Title = t)) =
      root.inorder.filter (fun x => decide (x.Title = t)) ++
        books.filter (fun x => decide (x.Title = t)) := by
  induction books generalizing root with
  | nil => simp
  | cons b rest ih =>
    simp only [List.foldl_cons]
    rw [ih (insert_bst root b) (ordered_insert_bst root b ho),
      inorder_insert_bst_filter root ho b t, List.append_assoc, ← List.filter_append]
    rfl

theorem foldl_addBook_length (books : List Book) :
    (books.foldl addBook LibrarySystem.init).books_by_isbn.length =
      ((books.map Book.ISBN).dedup).length := by
  have hinv := foldl_addBook_invariant books LibrarySystem.init List.nodup_nil
    (fun e he => absurd he (List.not_mem_nil e))
  have hperm : ((books.foldl addBook LibrarySystem.init).books_by_isbn.map Prod.fst).Perm
      ((books.map Book.ISBN).dedup) := by
    rw [List.perm_ext_iff_of_nodup hinv.1 (List.nodup_dedup _)]
    intro k
    rw [foldl_addBook_keys, List.mem_dedup, List.mem_map]
    simp [LibrarySystem.init]
  simpa using hperm.length_eq

/-- C15. The title index holds one node per `addBook` call, in title order:
after any sequence of `addBook` calls on a new library (repeated ISBNs
included), the in-order sequence of the tree is the sequence of the books
passed to `addBook` stably sorted by `Title`, that is, it is a rearrangement of
that sequence, no book in it is followed by a book with a smaller title in the
case-sensitive lexicographic order, and the books with one and the same title
appear in the order of their `addBook` calls.  The tree has as many nodes as
there were calls, the record store as many entries as there are distinct
ISBNs. -/
theorem title_index_stably_sorted (books : List Book) :
    (books.foldl addBook LibrarySystem.init).bst_root.inorder.Perm books ∧
      (books.foldl addBook LibrarySystem.init).bst_root.inorder.Pairwise
        (fun a b => str_lt b.Title a.Title = false) ∧
      (∀ t, (books.foldl addBook LibrarySystem.init).bst_root.inorder.filter
          (fun x => decide (x.Title = t)) = books.filter (fun x => decide (x.Title = t))) ∧
      (books.foldl addBook LibrarySystem.init).bst_root.size = books.length ∧
      (books.foldl addBook LibrarySystem.init).books_by_isbn.length =
        ((books.map Book.ISBN).dedup).length := by
  have hroot : (books.foldl addBook LibrarySystem.init).bst_root =
      books.foldl insert_bst .nullptr := foldl_addBook_bst_root books LibrarySystem.init
  have hperm : (books.foldl insert_bst .nullptr).inorder.Perm books := by
    simpa [BSTNode.inorder] using foldl_insert_bst_perm books .nullptr
  rw [hroot]
  refine ⟨hperm, inorder_sorted _ (foldl_insert_bst books .nullptr trivial).1, ?_, ?_,
    foldl_addBook_length books⟩
  · intro t
    simpa [BSTNode.inorder] using foldl_insert_bst_filter books .nullptr trivial t
  · rw [← inorder_length]
    exact hperm.length_eq

/-! ## Duplicate titles -/

/-- A title that the tree does not hold yet is found at a leaf right after its
insertion. -/
theorem search_bst_insert_new (root : BSTNode) (book : Book)
    (hnew : ∀ y ∈ root.inorder, y.Title ≠ book.Title) :
    search_bst (insert_bst root book) book.Title = .node book .nullptr .nullptr := by
  induction root with
  | nullptr => simp [insert_bst, search_bst]
  | node b left right ihl ihr =>
    have hb : b.Title ≠ book.Title := hnew b (by simp [BSTNode.inorder])
    simp only [insert_bst]
    split
    · rename_i hlt
      simp only [search_bst, hb, if_false, hlt, if_true]
      exact ihl (fun y hy => hnew y (by simp [BSTNode.inorder, hy]))
    · rename_i hge
      simp only [search_bst, hb, if_false, hge]
      exact ihr (fun y hy => hnew y (by simp [BSTNode.inorder, hy]))

theorem search_bst_ordered (root : BSTNode) (t : Str) (ho : root.Ordered) :
    (search_bst root t).Ordered := by
  induction root with
  | nullptr => exact trivial
  | node b left right ihl ihr =>
    simp only [search_bst]
    split
    · exact ho
    · split
      · exact ihl ho.2.2.1
      · exact ihr ho.2.2.2

/-- One more insertion leaves the node found for `t` in place; below it, the
books titled `t` of its right subtree are the former ones, followed by the new
book when it is titled `t`. -/
theorem search_bst_insert_bst (root : BSTNode) (ho : root.Ordered) (x : Book) (t : Str)
    (b : Book) (left right : BSTNode) (hs : search_bst root t = .node b left right) :
    ∃ left2 right2, search_bst (insert_bst root x) t = .node b left2 right2 ∧
      right2.inorder.filter (fun y => decide (y.Title = t)) =
        right.inorder.filter (fun y => decide (y.Title = t)) ++
          [x].filter (fun y => decide (y.Title = t)) := by
  induction root with
  | nullptr => simp [search_bst] at hs
  | node a l r ihl ihr =>
    obtain ⟨_, _, hol, hor⟩ := ho
    simp only [search_bst] at hs
    by_cases hat : a.Title = t
    · simp only [hat, if_true, BSTNode.node.injEq] at hs
      obtain ⟨h1, h2, h3⟩ := hs
      subst h1 h2 h3
      simp only [insert_bst]
      split
      · rename_i hlt
        refine ⟨insert_bst l x, r, by simp [search_bst, hat], ?_⟩
        have hxt : x.Title ≠ t := by
          intro hc
          rw [hc, hat, str_lt_irrefl] at hlt
          cases hlt
        simp [List.filter_cons, hxt]
      · exact ⟨l, insert_bst r x, by simp [search_bst, hat],
          inorder_insert_bst_filter r hor x t⟩
    · simp only [hat, if_false] at hs
      by_cases hta : str_lt t a.Title = true
      · simp only [hta, if_true] at hs
        simp only [insert_bst]
        split
        · simp only [search_bst, hat, if_false, hta, if_true]
          exact ihl hol hs
        · rename_i hge
          have hxt : x.Title ≠ t := by
            intro hc
            rw [hc] at hge
            exact hge hta
          refine ⟨left, right, by simp [search_bst, hat, hta, hs], ?_⟩
          simp [List.filter_cons, hxt]
      · simp only [hta, Bool.false_eq_true, if_false] at hs
        simp only [insert_bst]
        split
        · rename_i hlt
          have hxt : x.Title ≠ t := by
            intro hc
            rw [hc] at hlt
            exact hta hlt
          refine ⟨left, right, by simp [search_bst, hat, hta, hs], ?_⟩
          simp [List.filter_cons, hxt]
        · simp only [search_bst, hat, if_false, hta, Bool.false_eq_true]
          exact ihr hor hs

theorem search_bst_foldl_insert_bst (post : List Book) (root : BSTNode) (ho : root.Ordered)
    (t : Str) (b : Book) (left right : BSTNode)
    (hs : search_bst root t = .node b left right) :
    ∃ left2 right2, search_bst (post.foldl insert_bst root) t = .node b left2 right2 ∧
      right2.inorder.filter (fun y => decide (y.Title = t)) =
        right.inorder.filter (fun y => decide (y.Title = t)) ++
          post.filter (fun y => decide (y.Title = t)) := by
  induction post generalizing root left right with
  | nil => exact ⟨left, right, hs, by simp⟩
  | cons x rest ih =>
    obtain ⟨l1, r1, hs1, hf1⟩ := search_bst_insert_bst root ho x t b left right hs
    obtain ⟨l2, r2, hs2, hf2⟩ := ih (insert_bst root x) (ordered_insert_bst root x ho) l1 r1 hs1
    refine ⟨l2, r2, hs2, ?_⟩
    rw [hf2, hf1, List.append_assoc, ← List.filter_append]
    rfl

/-- C14. Duplicate titles resolve to the first occurrence: let the books
`earlier ++ first :: later` be inserted in this order with `insert_bst` into the
empty tree, `first` being the earliest book with its title.  Then `search_bst`
for that title returns the node of `first`; the books with that title in the
right subtree of this node are exactly the books with that title inserted
later, in the order of their insertion; and the left subtree holds no book with
that title. -/
theorem search_bst_first_occurrence (earlier later : List Book) (first : Book)
    (hfirst : ∀ x ∈ earlier, x.Title ≠ first.Title) :
    ∃ left right,
      search_bst ((earlier ++ first :: later).foldl insert_bst .nullptr) first.Title =
        .node first left right ∧
      right.inorder.filter (fun y => decide (y.Title = first.Title)) =
        later.filter (fun y => decide (y.Title = first.Title)) ∧
      (∀ y ∈ left.inorder, y.Title ≠ first.Title) := by
  obtain ⟨ho0, hm0⟩ := foldl_insert_bst earlier .nullptr trivial
  have hnew : ∀ y ∈ (earlier.foldl insert_bst .nullptr).inorder, y.Title ≠ first.Title := by
    intro y hy
    rcases (hm0 y).mp hy with h | h
    · exact hfirst y h
    · simp [BSTNode.inorder] at h
  have hs1 := search_bst_insert_new _ first hnew
  have ho1 := ordered_insert_bst _ first ho0
  obtain ⟨left, right, hs, hf⟩ :=
    search_bst_foldl_insert_bst later _ ho1 first.Title first .nullptr .nullptr hs1
  have hfold : (earlier ++ first :: later).foldl insert_bst .nullptr =
      later.foldl insert_bst (insert_bst (earlier.foldl insert_bst .nullptr) first) := by
    simp [List.foldl_append]
  rw [hfold]
  refine ⟨left, right, hs, by simpa [BSTNode.inorder] using hf, ?_⟩
  have ho2 := search_bst_ordered _ first.Title (foldl_insert_bst later _ ho1).1
  rw [hs] at ho2
  intro y hy hc
  have := ho2.1 y hy
  rw [hc, str_lt_irrefl] at this
  cases this

theorem search_bst_first_occurrence_witness :
    (∀ x ∈ [emma], x.Title ≠ dune.Title) ∧
      ∃ left right,
        search_bst (([emma] ++ dune :: [{ dune with Quantity := 7 }, emma]).foldl
          insert_bst .nullptr) dune.Title = .node dune left right ∧
        right.inorder.filter (fun y => decide (y.Title = dune.Title)) =
          [{ dune with Quantity := 7 }, emma].filter (fun y => decide (y.Title = dune.Title)) ∧
        (∀ y ∈ left.inorder, y.Title ≠ dune.Title) :=
  ⟨by decide, search_bst_first_occurrence [emma] [{ dune with Quantity := 7 }, emma] dune
    (by decide)⟩

/-! ## Trimming -/

/-- C19 at its failing input: a string of three spaces has no character other
than a space, so `trim` takes its early return and gives the string back as it
is; the result is not empty, and it begins and ends with a space. -/
theorem trim_blank_unchanged :
    find_first_not_of "   ".toList ' ' = none ∧
      trim "   ".toList = "   ".toList ∧
      trim "   ".toList ≠ [] ∧
      (trim "   ".toList).head? = some ' ' ∧
      (trim "   ".toList).getLast? = some ' ' := by
  decide

theorem find_first_not_of_none (s : Str) (c : Char) :
    find_first_not_of s c = none ↔ ∀ x ∈ s, x = c := by
  induction s with
  | nil => simp [find_first_not_of]
  | cons x xs ih =>
    simp only [find_first_not_of, List.mem_cons, forall_eq_or_imp]
    by_cases h : x = c
    · simp [h, ih]
    · simp [h]

theorem find_last_not_of_none (s : Str) (c : Char) :
    find_last_not_of s c = none ↔ ∀ x ∈ s, x = c := by
  induction s with
  | nil => simp [find_last_not_of]
  | cons x xs ih =>
    simp only [find_last_not_of, List.mem_cons, forall_eq_or_imp]
    cases hl : find_last_not_of xs c with
    | some j =>
      have : ¬ ∀ y ∈ xs, y = c := fun hc => by
        rw [ih.mpr hc] at hl
        cases hl
      simp [this]
    | none =>
      have hall := ih.mp hl
      by_cases h : x = c
      · simp only [h, ne_eq, not_true_eq_false, if_false, true_and, true_iff]
        exact hall
      · simp [h]

theorem find_first_not_of_drop (s : Str) (c : Char) (i : Nat)
    (h : find_first_not_of s c = some i) :
    s.drop i = s.dropWhile (fun x => decide (x = c)) := by
  induction s generalizing i with
  | nil => simp [find_first_not_of] at h
  | cons x xs ih =>
    simp only [find_first_not_of] at h
    by_cases hx : x = c
    · simp only [hx, ne_eq, not_true_eq_false, if_false] at h
      cases hr : find_first_not_of xs c with
      | none => simp [hr] at h
      | some i1 =>
        simp only [hr, Option.map_some', Option.some.injEq] at h
        subst h
        simp [List.dropWhile_cons, hx, ih i1 hr]
    · simp only [ne_eq, hx, not_false_eq_true, if_true, Option.some.injEq] at h
      subst h
      simp [List.dropWhile_cons, hx]

theorem rdropWhile_cons (p : Char → Bool) (x : Char) (xs : Str) :
    List.rdropWhile p (x :: xs) =
      if List.rdropWhile p xs = [] then (if p x then [] else [x])
      else x :: List.rdropWhile p xs := by
  unfold List.rdropWhile
  rw [List.reverse_cons, List.dropWhile_append]
  cases hd : List.dropWhile p xs.reverse with
  | nil => by_cases hp : p x <;> simp [List.dropWhile, hp]
  | cons y ys => simp

theorem find_last_not_of_take (s : Str) (c : Char) (j : Nat)
    (h : find_last_not_of s c = some j) :
    s.take (j + 1) = s.rdropWhile (fun x => decide (x = c)) := by
  induction s generalizing j with
  | nil => simp [find_last_not_of] at h
  | cons x xs ih =>
    simp only [find_last_not_of] at h
    rw [rdropWhile_cons]
    cases hl : find_last_not_of xs c with
    | some j1 =>
      simp only [hl, Option.some.injEq] at h
      subst h
      have hne : ¬ List.rdropWhile (fun x => decide (x = c)) xs = [] := by
        rw [List.rdropWhile_eq_nil_iff]
        intro hall
        have : find_last_not_of xs c = none :=
          (find_last_not_of_none xs c).mpr (fun y hy => by simpa using hall y hy)
        rw [this] at hl
        cases hl
      simp only [hne, if_false, List.take_succ_cons, ih j1 hl]
    | none =>
      have hall := (find_last_not_of_none xs c).mp hl
      have hnil : List.rdropWhile (fun x => decide (x = c)) xs = [] := by
        rw [List.rdropWhile_eq_nil_iff]
        intro y hy
        simpa using hall y hy
      simp only [hl] at h
      by_cases hx : x = c
      · simp [hx] at h
      · simp only [ne_eq, hx, not_false_eq_true, if_true, Option.some.injEq] at h
        subst h
        simp [hnil, hx]

/-- The position of the last non-space character, seen from the first one. -/
theorem find_last_not_of_drop (s : Str) (c : Char) (i j : Nat)
    (hi : find_first_not_of s c = some i) (hj : find_last_not_of s c = some j) :
    i ≤ j ∧ find_last_not_of (s.drop i) c = some (j - i) := by
  induction s generalizing i j with
  | nil => simp [find_first_not_of] at hi
  | cons x xs ih =>
    by_cases hx : x = c
    · simp only [find_first_not_of, hx, ne_eq, not_true_eq_false, if_false] at hi
      cases hr : find_first_not_of xs c with
      | none => simp [hr] at hi
      | some i1 =>
        simp only [hr, Option.map_some', Option.some.injEq] at hi
        subst hi
        simp only [find_last_not_of] at hj
        cases hl : find_last_not_of xs c with
        | none =>
          have hall := (find_last_not_of_none xs c).mp hl
          rw [(find_first_not_of_none xs c).mpr hall] at hr
          cases hr
        | some j1 =>
          simp only [hl, Option.some.injEq] at hj
          subst hj
          obtain ⟨h1, h2⟩ := ih i1 j1 hr hl
          refine ⟨by omega, ?_⟩
          simp only [List.drop_succ_cons, h2]
          congr 1
          omega
    · simp only [find_first_not_of, ne_eq, hx, not_false_eq_true, if_true,
        Option.some.injEq] at hi
      subst hi
      exact ⟨Nat.zero_le j, by simpa using hj⟩

/-- On a string with a character other than a space, `trim` removes exactly the
leading and the trailing spaces. -/
theorem trim_of_nonblank (s : Str) (h : ∃ x ∈ s, x ≠ ' ') : trim s = stripSpaces s := by
  cases hi : find_first_not_of s ' ' with
  | none =>
    obtain ⟨x, hx, hne⟩ := h
    exact absurd ((find_first_not_of_none s ' ').mp hi x hx) hne
  | some i =>
    cases hj : find_last_not_of s ' ' with
    | none =>
      obtain ⟨x, hx, hne⟩ := h
      exact absurd ((find_last_not_of_none s ' ').mp hj x hx) hne
    | some j =>
      obtain ⟨_, h2⟩ := find_last_not_of_drop s ' ' i j hi hj
      simp only [trim, hi, hj, Option.getD_some, substr, stripSpaces]
      rw [find_last_not_of_take _ _ _ h2, find_first_not_of_drop s ' ' i hi]

/-- On a string of spaces only, `trim` changes nothing. -/
theorem trim_of_blank (s : Str) (h : ∀ x ∈ s, x = ' ') : trim s = s := by
  simp only [trim, (find_first_not_of_none s ' ').mpr h]

/-- The result of `trim` on a string with a character other than a space starts
with such a character and ends with such a character. -/
theorem trim_of_nonblank_ends (s : Str) (h : ∃ x ∈ s, x ≠ ' ') :
    (∃ c rest, trim s = c :: rest ∧ c ≠ ' ') ∧ (∃ front c, trim s = front ++ [c] ∧ c ≠ ' ') := by
  rw [trim_of_nonblank s h]
  obtain ⟨x, hx, hne⟩ := h
  cases hu : s.dropWhile (fun c => decide (c = ' ')) with
  | nil =>
    have := (List.dropWhile_eq_nil_iff.mp hu) x hx
    simp only [decide_eq_true_eq] at this
    exact absurd this hne
  | cons c rest =>
    have hc : c ≠ ' ' := by
      have := List.head?_dropWhile_not (fun c => decide (c = ' ')) s
      rw [hu] at this
      simpa using this
    have hpre : stripSpaces s <+: c :: rest := by
      unfold stripSpaces
      rw [hu]
      exact List.rdropWhile_prefix _ _
    have hne2 : stripSpaces s ≠ [] := by
      unfold stripSpaces
      rw [hu]
      intro hnil
      have := (List.rdropWhile_eq_nil_iff.mp hnil) c (List.mem_cons_self _ _)
      simp only [decide_eq_true_eq] at this
      exact hc this
    constructor
    · cases ht : stripSpaces s with
      | nil => exact absurd ht hne2
      | cons d rest2 =>
        rw [ht] at hpre
        obtain ⟨tail, htail⟩ := hpre
        simp only [List.cons_append, List.cons.injEq] at htail
        exact ⟨d, rest2, rfl, htail.1 ▸ hc⟩
    · have hlast : ¬ (fun c => decide (c = ' ')) ((stripSpaces s).getLast hne2) = true :=
        List.rdropWhile_last_not (fun c => decide (c = ' '))
          (s.dropWhile (fun c => decide (c = ' '))) hne2
      refine ⟨(stripSpaces s).dropLast, (stripSpaces s).getLast hne2,
        (List.dropLast_append_getLast hne2).symm, ?_⟩
      simpa using hlast

/-- The helper `trim` is idempotent. -/
theorem trim_idempotent (s : Str) : trim (trim s) = trim s := by
  by_cases h : ∃ x ∈ s, x ≠ ' '
  · obtain ⟨⟨c, rest, hcr, hc⟩, _⟩ := trim_of_nonblank_ends s h
    have hnb : ∃ x ∈ trim s, x ≠ ' ' := ⟨c, by rw [hcr]; exact List.mem_cons_self _ _, hc⟩
    rw [trim_of_nonblank (trim s) hnb]
    have hd : (trim s).dropWhile (fun c => decide (c = ' ')) = trim s := by
      rw [hcr]
      simp [List.dropWhile_cons, hc]
    unfold stripSpaces
    rw [hd, trim_of_nonblank s h]
    unfold stripSpaces
    exact List.rdropWhile_idempotent _ _
  · have hall : ∀ x ∈ s, x = ' ' := by
      intro x hx
      by_contra hc
      exact h ⟨x, hx, hc⟩
    rw [trim_of_blank s hall]
    exact trim_of_blank s hall

/-! ## The title finder against trimmed, case-blind comparison -/

theorem toLowerCase_eq_map (s : Str) : toLowerCase s = s.map Char.toLower := by
  unfold toLowerCase
  apply List.map_congr_left
  intro c _
  rfl

/-- On a string with a character other than a space, the normalisation of the
source is the normal form. -/
theorem toLowerCase_trim_of_nonblank (s : Str) (h : ∃ x ∈ s, x ≠ ' ') :
    toLowerCase (trim s) = normalForm s := by
  rw [toLowerCase_eq_map, trim_of_nonblank s h]
  rfl

/-- Where the finder is right: when the query and every stored title hold a
character other than a space, `getBookByTitle` returns a position exactly when
some entry has the normal form of the query, and the position returned is that
of the first such entry in iteration order. -/
theorem getBookByTitle_of_nonblank (m : Store) (t : Str) (ht : ∃ x ∈ t, x ≠ ' ')
    (hm : ∀ e ∈ m, ∃ x ∈ e.2.Title, x ≠ ' ') :
    ((getBookByTitle m t).isSome ↔ ∃ e ∈ m, normalForm e.2.Title = normalForm t) ∧
    (∀ p, getBookByTitle m t = some p →
      (∃ e, m[p]? = some e ∧ normalForm e.2.Title = normalForm t) ∧
        ∀ j e, j < p → m[j]? = some e → normalForm e.2.Title ≠ normalForm t) := by
  have hkey : ∀ e ∈ m, (toLowerCase (trim e.2.Title) = toLowerCase (trim t) ↔
      normalForm e.2.Title = normalForm t) := by
    intro e he
    rw [toLowerCase_trim_of_nonblank _ (hm e he), toLowerCase_trim_of_nonblank _ ht]
  constructor
  · constructor
    · intro h
      obtain ⟨p, hp⟩ := Option.isSome_iff_exists.mp h
      obtain ⟨⟨e, he, hte⟩, _⟩ := getBookByTitle_some m t p hp
      exact ⟨e, List.getElem?_mem he, (hkey e (List.getElem?_mem he)).mp hte⟩
    · rintro ⟨e, he, hte⟩
      cases hg : getBookByTitle m t with
      | none => exact absurd ((hkey e he).mpr hte) ((getBookByTitle_none m t).mp hg e he)
      | some p => rfl
  · intro p hp
    obtain ⟨⟨e, he, hte⟩, hfirst⟩ := getBookByTitle_some m t p hp
    refine ⟨⟨e, he, (hkey e (List.getElem?_mem he)).mp hte⟩, ?_⟩
    intro j e2 hj he2 hc
    exact hfirst j e2 hj he2 ((hkey e2 (List.getElem?_mem he2)).mpr hc)

/-- C10 at its failing input: the store holds a book whose title is one space
and the query is two spaces.  Trimmed, both are the empty string, so they are
equal after trimming and lower-casing; but `trim` hands a string of spaces back
as it is, the finder compares one space with two and returns the null pointer,
and `lendBook` reports the title as not found.  A query that differs from the
title "Dune" in case and in surrounding spaces is found. -/
theorem getBookByTitle_misses_blank_title :
    duneAndBlank.books_by_isbn = [("X1".toList, dune), ("B1".toList, blankTitled)] ∧
      blankTitled.Title = " ".toList ∧
      normalForm " ".toList = normalForm "  ".toList ∧
      trim " ".toList = " ".toList ∧ trim "  ".toList = "  ".toList ∧
      getBookByTitle duneAndBlank.books_by_isbn "  ".toList = none ∧
      (lendBook (reserveBook duneAndBlank "  ".toList)).1 = .BookNotFound "  ".toList ∧
      getBookByTitle duneAndBlank.books_by_isbn "  dUNE ".toList = some 0 := by
  decide

end Library
